import Mathlib

/-!
# Verification of the `cbtree` posting-list index

A shallow embedding of `src/btree.ts` (a multiway search tree mapping sort
keys to posting sets of document ids, with cached per-subtree covering sets)
and of the randomized extremal selector `quickSelect` (`src/unnamed/part_000`).

Modelling conventions:
* `RoaringBitmap32` (a set of uint32 document ids) is modelled as `Finset Nat`;
  `add` is `Insert.insert`, `orInPlace` is union, `and` is intersection,
  `size` is `Finset.card`, `select(i)` picks the i-th smallest element.
* Keys are specialized to `Nat` (the source is generic over a comparable `T`).
* In-place mutation is modelled by returning the updated structure.
* Calls that would dereference a missing array slot (and hence throw at
  runtime) return `none`; fallible operations return `Option`.
* `BTreeNode.insert` re-invokes itself on the same (spliced) node after a
  preemptive split, so it is not structurally recursive on the tree; it is
  modelled with an explicit fuel parameter, and trees "built by a sequence
  of insertions" are those reachable through successful (`some`) insertions.
-/

namespace CBTree

def MAX_NODE_SIZE : Nat := 32

def MAX_LEAF_SIZE : Nat := 32

/-- A tree element is a leaf (parallel arrays of keys and posting sets) or an
inner node (separator keys, children, and a cached covering set), following
`BTreeElement<T> = BTreeLeaf<T> | BTreeNode<T>`. -/
inductive BTreeElement : Type where
  | leaf (keys : List Nat) (values : List (Finset Nat)) : BTreeElement
  | node (keys : List Nat) (children : List BTreeElement) (covering : Finset Nat) : BTreeElement

namespace BTreeElement

/-- `BTreeLeaf._findIndex` / `BTreeNode._findChildIndex`: the scan
`for (; i < len && key >= keys[i]; ++i);` returns the length of the maximal
prefix of `keys` whose entries satisfy `key >= keys[i]`. -/
def findIndex (key : Nat) : List Nat → Nat
  | [] => 0
  | k :: ks => if key ≥ k then findIndex key ks + 1 else 0

/-- `BTreeLeaf.get`: look at index `_findIndex(key) - 1`; in JS an index of
`-1` reads `undefined`, which never equals a numeric key, hence `none` when
the scan index is `0`.  A missing `values` slot would also read `undefined`. -/
def leafGet (keys : List Nat) (values : List (Finset Nat)) (key : Nat) : Option (Finset Nat) :=
  let i := findIndex key keys
  if i = 0 then none
  else if keys[i - 1]? = some key then values[i - 1]? else none

/-- `BTreeLeaf.insert`: add to the existing posting set (in place, i.e. at the
index where `get` found it), or splice a fresh singleton posting set at the
sorted position. -/
def leafInsert (keys : List Nat) (values : List (Finset Nat)) (key value : Nat) :
    List Nat × List (Finset Nat) :=
  match leafGet keys values key with
  | some bitmap => (keys, values.set (findIndex key keys - 1) (Insert.insert value bitmap))
  | none =>
    let i := findIndex key keys
    (keys.insertIdx i key, values.insertIdx i {value})

/-- `full()`: the key count has reached the capacity. -/
def full : BTreeElement → Bool
  | .leaf keys _ => decide (keys.length ≥ MAX_LEAF_SIZE)
  | .node keys _ _ => decide (keys.length ≥ MAX_NODE_SIZE)

/-- `collectAll`: a leaf unions every posting set into the accumulator; an
inner node unions its cached covering set. -/
def collectAll : BTreeElement → Finset Nat → Finset Nat
  | .leaf _ values, accumulator => values.foldl (fun acc v => acc ∪ v) accumulator
  | .node _ _ covering, accumulator => accumulator ∪ covering

/-- The `BTreeNode` constructor: store the keys and children and recompute the
covering set by `collectAll`-ing every child into a fresh empty set. -/
def mkNode (keys : List Nat) (children : List BTreeElement) : BTreeElement :=
  .node keys children (children.foldl (fun acc c => collectAll c acc) ∅)

/-- `split()` for both kinds of element.  The median index is
`floor(size / 2)`; a leaf keeps the median key in its right half
(`slice(medianIdx)`), an inner node drops it from both halves
(`slice(medianIdx + 1)`).  `split` is only invoked on full elements, whose
key array is nonempty; on an empty key array the median read yields `none`. -/
def split : BTreeElement → Option (Nat × BTreeElement × BTreeElement)
  | .leaf keys values =>
    let medianIdx := keys.length / 2
    match keys[medianIdx]? with
    | none => none
    | some medianKey =>
      some (medianKey,
        .leaf (keys.take medianIdx) (values.take medianIdx),
        .leaf (keys.drop medianIdx) (values.drop medianIdx))
  | .node keys children _ =>
    let medianIdx := keys.length / 2
    match keys[medianIdx]? with
    | none => none
    | some medianKey =>
      some (medianKey,
        mkNode (keys.take medianIdx) (children.take (medianIdx + 1)),
        mkNode (keys.drop (medianIdx + 1)) (children.drop (medianIdx + 1)))

mutual

/-- `get`: a leaf answers directly; an inner node dispatches to
`children[_findChildIndex(key)]`. -/
def get : BTreeElement → Nat → Option (Finset Nat)
  | .leaf keys values, key => leafGet keys values key
  | .node keys children _, key => getChild children (findIndex key keys) key

/-- The indexing `this.children[i].get(key)`, walking to index `i`
(`none` models the runtime error on a missing slot). -/
def getChild : List BTreeElement → Nat → Nat → Option (Finset Nat)
  | [], _, _ => none
  | c :: _, 0, key => get c key
  | _ :: cs, i + 1, key => getChild cs i key

end

mutual

/-- `collectGt`: a leaf scans from its upper end while `key > keys[i]`
(note: the source compares the bound against the stored key in this
direction), unioning the corresponding posting sets; an inner node bulk-collects
every child strictly right of the trailing separators satisfying
`keys[i] > key` and then recurses into the boundary child `children[len - j]`. -/
def collectGt : BTreeElement → Finset Nat → Nat → Option (Finset Nat)
  | .leaf keys values, accumulator, key =>
    some (((keys.zip values).reverse.takeWhile (fun kv => key > kv.1)).foldl
      (fun acc kv => acc ∪ kv.2) accumulator)
  | .node keys children _, accumulator, key =>
    let j := (keys.reverse.takeWhile (fun k => k > key)).length
    let acc1 := ((children.drop (keys.length + 1 - j)).reverse).foldl
      (fun acc c => collectAll c acc) accumulator
    gtChild children (keys.length - j) acc1 key

/-- The boundary-child recursion `this.children[i + 1].collectGt(...)`. -/
def gtChild : List BTreeElement → Nat → Finset Nat → Nat → Option (Finset Nat)
  | [], _, _, _ => none
  | c :: _, 0, acc, key => collectGt c acc key
  | _ :: cs, i + 1, acc, key => gtChild cs i acc key

end

mutual

/-- `collectGte`, mirroring `collectGt` with a non-strict comparison. -/
def collectGte : BTreeElement → Finset Nat → Nat → Option (Finset Nat)
  | .leaf keys values, accumulator, key =>
    some (((keys.zip values).reverse.takeWhile (fun kv => key ≥ kv.1)).foldl
      (fun acc kv => acc ∪ kv.2) accumulator)
  | .node keys children _, accumulator, key =>
    let j := (keys.reverse.takeWhile (fun k => k ≥ key)).length
    let acc1 := ((children.drop (keys.length + 1 - j)).reverse).foldl
      (fun acc c => collectAll c acc) accumulator
    gteChild children (keys.length - j) acc1 key

/-- The boundary-child recursion of `collectGte`. -/
def gteChild : List BTreeElement → Nat → Finset Nat → Nat → Option (Finset Nat)
  | [], _, _, _ => none
  | c :: _, 0, acc, key => collectGte c acc key
  | _ :: cs, i + 1, acc, key => gteChild cs i acc key

end

mutual

/-- `collectLt`: a leaf scans from its lower end while `key < keys[i]`; an
inner node bulk-collects every child left of the leading separators satisfying
`keys[i] < key` and recurses into the boundary child. -/
def collectLt : BTreeElement → Finset Nat → Nat → Option (Finset Nat)
  | .leaf keys values, accumulator, key =>
    some (((keys.zip values).takeWhile (fun kv => key < kv.1)).foldl
      (fun acc kv => acc ∪ kv.2) accumulator)
  | .node keys children _, accumulator, key =>
    let j := (keys.takeWhile (fun k => k < key)).length
    let acc1 := (children.take j).foldl (fun acc c => collectAll c acc) accumulator
    ltChild children j acc1 key

/-- The boundary-child recursion of `collectLt`. -/
def ltChild : List BTreeElement → Nat → Finset Nat → Nat → Option (Finset Nat)
  | [], _, _, _ => none
  | c :: _, 0, acc, key => collectLt c acc key
  | _ :: cs, i + 1, acc, key => ltChild cs i acc key

end

mutual

/-- `collectLte`, mirroring `collectLt` with a non-strict comparison. -/
def collectLte : BTreeElement → Finset Nat → Nat → Option (Finset Nat)
  | .leaf keys values, accumulator, key =>
    some (((keys.zip values).takeWhile (fun kv => key ≤ kv.1)).foldl
      (fun acc kv => acc ∪ kv.2) accumulator)
  | .node keys children _, accumulator, key =>
    let j := (keys.takeWhile (fun k => k ≤ key)).length
    let acc1 := (children.take j).foldl (fun acc c => collectAll c acc) accumulator
    lteChild children j acc1 key

/-- The boundary-child recursion of `collectLte`. -/
def lteChild : List BTreeElement → Nat → Finset Nat → Nat → Option (Finset Nat)
  | [], _, _, _ => none
  | c :: _, 0, acc, key => collectLte c acc key
  | _ :: cs, i + 1, acc, key => lteChild cs i acc key

end

/-- `BTreeNode.insert` (and the leaf base case).  If the target child is full
it is preemptively split, the median key and right half are spliced into the
current node, and insertion restarts at the current node; otherwise `value`
is added to the covering set and insertion recurses into the child.  The
restart is not structurally decreasing, so the definition carries fuel;
`none` signals fuel exhaustion or a missing child slot. -/
def insert : Nat → BTreeElement → Nat → Nat → Option BTreeElement
  | 0, _, _, _ => none
  | _ + 1, .leaf keys values, key, value =>
    let kv := leafInsert keys values key value
    some (.leaf kv.1 kv.2)
  | fuel + 1, .node keys children covering, key, value =>
    let i := findIndex key keys
    match children[i]? with
    | none => none
    | some c =>
      if c.full then
        match c.split with
        | none => none
        | some (medianKey, left, right) =>
          insert fuel
            (.node (keys.insertIdx i medianKey) ((children.insertIdx (i + 1) right).set i left)
              covering)
            key value
      else
        match insert fuel c key value with
        | none => none
        | some c' => some (.node keys (children.set i c') (Insert.insert value covering))

end BTreeElement

/-- The public handle: owns the root element. -/
structure BTree where
  root : BTreeElement

namespace BTree

open BTreeElement

/-- The `BTree` constructor: the root starts as an empty leaf. -/
def new : BTree := ⟨.leaf [] []⟩

/-- `BTree.insert`: if the root is full, split it, wrap the halves in a fresh
inner node whose sole separator is the promoted median key, and retry. -/
def insert : Nat → BTree → Nat → Nat → Option BTree
  | 0, _, _, _ => none
  | fuel + 1, t, key, value =>
    if t.root.full then
      match t.root.split with
      | none => none
      | some (medianKey, left, right) =>
        insert fuel ⟨mkNode [medianKey] [left, right]⟩ key value
    else
      match BTreeElement.insert fuel t.root key value with
      | none => none
      | some root' => some ⟨root'⟩

/-- `BTree.get`. -/
def get (t : BTree) (key : Nat) : Option (Finset Nat) :=
  t.root.get key

/-- `BTree.gt`: collect into a fresh bitmap. -/
def gt (t : BTree) (key : Nat) : Option (Finset Nat) :=
  t.root.collectGt ∅ key

/-- `BTree.gte`. -/
def gte (t : BTree) (key : Nat) : Option (Finset Nat) :=
  t.root.collectGte ∅ key

/-- `BTree.lt`. -/
def lt (t : BTree) (key : Nat) : Option (Finset Nat) :=
  t.root.collectLt ∅ key

/-- `BTree.lte`. -/
def lte (t : BTree) (key : Nat) : Option (Finset Nat) :=
  t.root.collectLte ∅ key

end BTree

/-- The trees built by a sequence of completed (successful) insertions from a
fresh tree, together with the list of `(key, docId)` pairs inserted. -/
inductive Built : BTree → List (Nat × Nat) → Prop where
  | nil : Built BTree.new []
  | step : ∀ {t ps fuel key value t'}, Built t ps →
      BTree.insert fuel t key value = some t' → Built t' (ps ++ [(key, value)])

/-- Union of a list of posting sets. -/
def unionList (l : List (Finset Nat)) : Finset Nat :=
  l.foldl (fun acc v => acc ∪ v) ∅

mutual

/-- The union of all posting sets stored in an element's subtree (the set the
spec says a covering set must equal). -/
def elemUnion : BTreeElement → Finset Nat
  | .leaf _ values => unionList values
  | .node _ children _ => elemUnionList children

/-- The union of all posting sets below a list of children. -/
def elemUnionList : List BTreeElement → Finset Nat
  | [] => ∅
  | c :: cs => elemUnion c ∪ elemUnionList cs

end

/-- The covering invariant: every inner node's cached covering set equals the
union of the posting sets of every key stored in that node's subtree. -/
inductive CoveringExact : BTreeElement → Prop where
  | leaf : ∀ keys values, CoveringExact (.leaf keys values)
  | node : ∀ keys children covering,
      (∀ c ∈ children, CoveringExact c) →
      covering = elemUnionList children →
      CoveringExact (.node keys children covering)

/-- Structural parallel-array invariant: in every leaf, `keys` and `values`
have the same length. -/
inductive LeafLenOk : BTreeElement → Prop where
  | leaf : ∀ keys values, values.length = keys.length → LeafLenOk (.leaf keys values)
  | node : ∀ keys children covering,
      (∀ c ∈ children, LeafLenOk c) →
      LeafLenOk (.node keys children covering)

/-- A concrete 32-key leaf content, used to witness `c6_amended_leaf_split`. -/
def c6keys : List Nat :=
  [1, 2, 3, 4, 5, 6, 7, 8, 9, 10, 11, 12, 13, 14, 15, 16,
   17, 18, 19, 20, 21, 22, 23, 24, 25, 26, 27, 28, 29, 30, 31, 32]

/-- Parallel posting sets for `c6keys`. -/
def c6vals : List (Finset Nat) := List.replicate 32 {0}

/-- `RoaringBitmap32.select(i)`: the i-th smallest element of the set
(`undefined`, i.e. `none`, when out of range), computed by peeling off the
minimum `i` times. -/
def select (s : Finset Nat) : Nat → Option Nat
  | 0 =>
    match s.min with
    | none => none
    | some m => some m
  | i + 1 =>
    match s.min with
    | none => none
    | some m => select (s.erase m) i

/-- Run a whole sequence of `(key, docId)` insertions from a fresh tree (the
caller-driven build loop described by the spec), with a fixed fuel per
insertion. -/
def buildT (ps : List (Nat × Nat)) : Option BTree :=
  ps.foldl (fun t kv => t.bind fun t => BTree.insert 32 t kv.1 kv.2) (some BTree.new)

/-- The key array of an element (used to state split properties). -/
def keysOf : BTreeElement → List Nat
  | .leaf keys _ => keys
  | .node keys _ _ => keys

/-- `quickSelect` from `src/unnamed/part_000`.  `Math.floor(Math.random() *
cardinality)` produces an arbitrary index in `[0, cardinality)`; the stream of
these random draws is modelled by the list `rand`, reduced modulo
`cardinality` to keep it in range.  The recursion carries fuel (`none` on
exhaustion); lookups that would produce `undefined` also yield `none`. -/
def quickSelect : Nat → List Nat → Finset Nat → Nat → BTree → (Nat → Option Nat) → Option Nat
  | 0, _, _, _, _, _ => none
  | fuel + 1, rand, results, cardinality, sortField, sortDocVals =>
    let pivotIndex := rand.headD 0 % cardinality
    match select results pivotIndex with
    | none => none
    | some pivotDoc =>
      match sortDocVals pivotDoc with
      | none => none
      | some pivotValue =>
        match sortField.gt pivotValue with
        | none => none
        | some gtSet =>
          let leftResults := results ∩ gtSet
          let cardinality := leftResults.card
          if cardinality = 0 then select results pivotIndex
          else quickSelect fuel rand.tail leftResults cardinality sortField sortDocVals

/-- `k` is admissible as a data key in a subtree delimited by an optional
inclusive lower separator bound and an optional exclusive upper one (a key
equal to a separator routes to the right child). -/
def KeyIn (lo hi : Option Nat) (k : Nat) : Prop :=
  (∀ l ∈ lo, l ≤ k) ∧ (∀ h ∈ hi, k < h)

/-- A separator key lies strictly between the bounds. -/
def SepIn (lo hi : Option Nat) (k : Nat) : Prop :=
  (∀ l ∈ lo, l < k) ∧ (∀ h ∈ hi, k < h)

/-- `Chained P lo hi keys children`: the separator keys split the interval
`(lo, hi)` into consecutive sub-intervals, child `i` satisfying `P` between
`keys[i-1]` (inclusive) and `keys[i]` (exclusive) — the routing discipline of
`_findChildIndex`. -/
inductive Chained (P : Option Nat → Option Nat → BTreeElement → Prop) :
    Option Nat → Option Nat → List Nat → List BTreeElement → Prop where
  | single : ∀ {lo hi c}, P lo hi c → Chained P lo hi [] [c]
  | cons : ∀ {lo hi k keys c children}, SepIn lo hi k → P lo (some k) c →
      Chained P (some k) hi keys children → Chained P lo hi (k :: keys) (c :: children)

/-- Well-formedness of an element between separator bounds: a leaf has
strictly increasing in-bounds keys, parallel arrays and at most
`MAX_LEAF_SIZE` keys; an inner node has at most `MAX_NODE_SIZE` separators
with interval-chained well-formed children (hence `children.length =
keys.length + 1`). -/
inductive WFB : Option Nat → Option Nat → BTreeElement → Prop where
  | leaf : ∀ {lo hi keys values},
      List.Chain' (· < ·) keys →
      values.length = keys.length →
      keys.length ≤ MAX_LEAF_SIZE →
      (∀ k ∈ keys, KeyIn lo hi k) →
      WFB lo hi (.leaf keys values)
  | node : ∀ {lo hi keys children covering},
      keys.length ≤ MAX_NODE_SIZE →
      Chained WFB lo hi keys children →
      WFB lo hi (.node keys children covering)

/-- The sorted-key invariant of the spec: every leaf's key array is strictly
increasing (no duplicates). -/
inductive LeavesSorted : BTreeElement → Prop where
  | leaf : ∀ {keys values}, List.Chain' (· < ·) keys →
      LeavesSorted (.leaf keys values)
  | node : ∀ {keys children covering}, (∀ c ∈ children, LeavesSorted c) →
      LeavesSorted (.node keys children covering)

/-- The capacity invariant of the spec: every leaf holds at most
`MAX_LEAF_SIZE` keys and every inner node at most `MAX_NODE_SIZE`
separators. -/
inductive SizeOk : BTreeElement → Prop where
  | leaf : ∀ {keys values}, keys.length ≤ MAX_LEAF_SIZE →
      SizeOk (.leaf keys values)
  | node : ∀ {keys children covering}, keys.length ≤ MAX_NODE_SIZE →
      (∀ c ∈ children, SizeOk c) → SizeOk (.node keys children covering)

/-- The slack available for one insertion: `BTreeElement.insert` is only ever
invoked on a non-full element, or on an element that just spliced in a
promoted median (≤ capacity keys) whose routed target child is not full. -/
def SlackOk : BTreeElement → Nat → Prop
  | .leaf keys _, _ => keys.length < MAX_LEAF_SIZE
  | .node keys children _, key =>
    keys.length < MAX_NODE_SIZE ∨
      (keys.length ≤ MAX_NODE_SIZE ∧
        ∃ c, children[BTreeElement.findIndex key keys]? = some c ∧ c.full = false)

mutual

/-- The `(key, posting set)` pairs stored in an element, in tree order. -/
def entries : BTreeElement → List (Nat × Finset Nat)
  | .leaf keys values => keys.zip values
  | .node _ children _ => entriesList children

/-- The entries below a list of children, in order. -/
def entriesList : List BTreeElement → List (Nat × Finset Nat)
  | [] => []
  | c :: cs => entries c ++ entriesList cs

end

/-- First-match association lookup in an entry list. -/
def lookupE : List (Nat × Finset Nat) → Nat → Option (Finset Nat)
  | [], _ => none
  | p :: rest, key => if key = p.1 then some p.2 else lookupE rest key

/-- The reference map: what a sequence of `(key, docId)` insertions should
associate to each key (a posting set accumulating every doc id inserted under
that key). -/
def specOf (ps : List (Nat × Nat)) : Nat → Option (Finset Nat) :=
  ps.foldl
    (fun m kv k => if k = kv.1 then some (Insert.insert kv.2 ((m kv.1).getD ∅)) else m k)
    (fun _ => none)

/-- The selector contract's indexing hypothesis for a document `d`: the lookup
map knows its sort value `k`, `d` is indexed in the tree under `k`, and under
no other key. -/
def ExactAt (t : BTree) (sortDocVals : Nat → Option Nat) (d : Nat) : Prop :=
  ∃ k, sortDocVals d = some k ∧
    (∃ p ∈ entries t.root, d ∈ p.2 ∧ p.1 = k) ∧
    (∀ p ∈ entries t.root, d ∈ p.2 → p.1 = k)


/-! ## Built trees and concrete runs -/

lemma buildT_foldl_none (ps : List (Nat × Nat)) :
    ps.foldl (fun t kv => t.bind fun t => BTree.insert 32 t kv.1 kv.2) none = none := by
  induction ps with
  | nil => rfl
  | cons kv ps ih => simpa using ih

lemma built_of_foldl {t0 : BTree} {qs : List (Nat × Nat)} (h0 : Built t0 qs) :
    ∀ ps t, ps.foldl (fun t kv => t.bind fun t => BTree.insert 32 t kv.1 kv.2) (some t0) = some t →
      Built t (qs ++ ps) := by
  intro ps
  induction ps generalizing t0 qs with
  | nil =>
    intro t h
    simp only [List.foldl_nil, Option.some.injEq] at h
    simpa [h] using h0
  | cons kv ps ih =>
    intro t h
    simp only [List.foldl_cons, Option.some_bind] at h
    cases hins : BTree.insert 32 t0 kv.1 kv.2 with
    | none => rw [hins] at h; rw [buildT_foldl_none] at h; exact absurd h (by simp)
    | some t1 =>
      rw [hins] at h
      have h1 : Built t1 (qs ++ [(kv.1, kv.2)]) := Built.step h0 hins
      have := ih h1 t h
      simpa using this

/-- A successful `buildT` run produces a `Built` tree with that insertion
trace. -/
theorem built_of_buildT (ps : List (Nat × Nat)) (t : BTree) (h : buildT ps = some t) :
    Built t ps := by
  simpa using built_of_foldl Built.nil ps t h

/-! ## Union bookkeeping for the covering invariant -/

namespace BTreeElement

lemma foldl_union_acc (l : List (Finset Nat)) :
    ∀ acc, l.foldl (fun a v => a ∪ v) acc = acc ∪ unionList l := by
  induction l with
  | nil => intro acc; simp [unionList]
  | cons v vs ih =>
    intro acc
    show vs.foldl _ (acc ∪ v) = acc ∪ unionList (v :: vs)
    rw [ih (acc ∪ v)]
    have hv : unionList (v :: vs) = v ∪ unionList vs := by
      show vs.foldl _ (∅ ∪ v) = _
      rw [ih (∅ ∪ v)]
      ext x; simp
    rw [hv]
    ext x; simp; try tauto

lemma unionList_cons (v : Finset Nat) (l : List (Finset Nat)) :
    unionList (v :: l) = v ∪ unionList l := by
  show l.foldl _ (∅ ∪ v) = _
  rw [foldl_union_acc l (∅ ∪ v)]
  ext x; simp

lemma unionList_append (a b : List (Finset Nat)) :
    unionList (a ++ b) = unionList a ∪ unionList b := by
  induction a with
  | nil => simp [unionList]
  | cons v vs ih =>
    rw [List.cons_append, unionList_cons, unionList_cons, ih]
    ext x; simp; try tauto

lemma elemUnionList_cons (c : BTreeElement) (cs : List BTreeElement) :
    elemUnionList (c :: cs) = elemUnion c ∪ elemUnionList cs := by
  simp [elemUnionList]

lemma elemUnionList_append (a b : List BTreeElement) :
    elemUnionList (a ++ b) = elemUnionList a ∪ elemUnionList b := by
  induction a with
  | nil => simp [elemUnionList]
  | cons c cs ih =>
    rw [List.cons_append, elemUnionList_cons, elemUnionList_cons, ih]
    ext x; simp; try tauto

lemma collectAll_eq {c : BTreeElement} (h : CoveringExact c) (acc : Finset Nat) :
    collectAll c acc = acc ∪ elemUnion c := by
  cases h with
  | leaf keys values =>
    show values.foldl _ acc = _
    rw [foldl_union_acc]
    rfl
  | node keys children covering hc hcov =>
    show acc ∪ covering = _
    rw [hcov]
    rfl

lemma foldl_collectAll_eq {children : List BTreeElement}
    (h : ∀ c ∈ children, CoveringExact c) :
    ∀ acc, children.foldl (fun acc c => collectAll c acc) acc = acc ∪ elemUnionList children := by
  induction children with
  | nil => intro acc; simp [elemUnionList]
  | cons c cs ih =>
    intro acc
    show cs.foldl _ (collectAll c acc) = _
    rw [ih (fun x hx => h x (List.mem_cons_of_mem _ hx)) _,
      collectAll_eq (h c (List.mem_cons_self _ _)) acc, elemUnionList_cons]
    ext x; simp; try tauto

lemma mkNode_cov (children : List BTreeElement) (keys : List Nat)
    (h : ∀ c ∈ children, CoveringExact c) :
    CoveringExact (mkNode keys children) ∧
      elemUnion (mkNode keys children) = elemUnionList children := by
  refine ⟨CoveringExact.node _ _ _ h ?_, by simp [mkNode, elemUnion]⟩
  rw [foldl_collectAll_eq h ∅]
  ext x; simp

lemma unionList_set_add {values : List (Finset Nat)} {i : Nat} {b : Finset Nat} {v : Nat}
    (hi : values[i]? = some b) :
    unionList (values.set i (Insert.insert v b)) = unionList values ∪ {v} := by
  induction values generalizing i with
  | nil => simp at hi
  | cons v0 vs ih =>
    cases i with
    | zero =>
      simp only [List.getElem?_cons_zero, Option.some.injEq] at hi
      subst hi
      rw [List.set_cons_zero, unionList_cons, unionList_cons]
      ext x; simp; try tauto
    | succ i =>
      have hi' : vs[i]? = some b := by simpa using hi
      rw [List.set_cons_succ, unionList_cons, unionList_cons, ih hi']
      ext x; simp; try tauto

lemma unionList_insertIdx {values : List (Finset Nat)} {s : Finset Nat} :
    ∀ {i : Nat}, i ≤ values.length →
      unionList (values.insertIdx i s) = unionList values ∪ s := by
  induction values with
  | nil =>
    intro i hi
    have h0 : i = 0 := Nat.le_zero.mp hi
    subst h0
    rw [List.insertIdx_zero, unionList_cons]
    ext x; simp [unionList]
  | cons v0 vs ih =>
    intro i hi
    cases i with
    | zero =>
      rw [List.insertIdx_zero, unionList_cons]
      ext x; simp; try tauto
    | succ i =>
      rw [List.insertIdx_succ_cons, unionList_cons, unionList_cons,
        ih (by simpa using hi)]
      ext x; simp; try tauto

lemma elemUnionList_set_add {children : List BTreeElement} {i : Nat}
    {c c' : BTreeElement} {v : Nat} (hi : children[i]? = some c)
    (hc' : elemUnion c' = elemUnion c ∪ {v}) :
    elemUnionList (children.set i c') = elemUnionList children ∪ {v} := by
  induction children generalizing i with
  | nil => simp at hi
  | cons c0 cs ih =>
    cases i with
    | zero =>
      simp only [List.getElem?_cons_zero, Option.some.injEq] at hi
      subst hi
      rw [List.set_cons_zero, elemUnionList_cons, elemUnionList_cons, hc']
      ext x; simp; try tauto
    | succ i =>
      have hi' : cs[i]? = some c := by simpa using hi
      rw [List.set_cons_succ, elemUnionList_cons, elemUnionList_cons, ih hi']
      ext x; simp; try tauto

lemma elemUnionList_splice {children : List BTreeElement} {c l r : BTreeElement}
    (hlr : elemUnion l ∪ elemUnion r = elemUnion c) :
    ∀ {i : Nat}, children[i]? = some c →
      elemUnionList ((children.insertIdx (i + 1) r).set i l) = elemUnionList children := by
  induction children with
  | nil => intro i hi; simp at hi
  | cons c0 cs ih =>
    intro i hi
    cases i with
    | zero =>
      simp only [List.getElem?_cons_zero, Option.some.injEq] at hi
      subst hi
      rw [List.insertIdx_succ_cons, List.insertIdx_zero, List.set_cons_zero,
        elemUnionList_cons, elemUnionList_cons, elemUnionList_cons, ← hlr]
      ext x; simp; try tauto
    | succ i =>
      have hi' : cs[i]? = some c := by simpa using hi
      rw [List.insertIdx_succ_cons, List.set_cons_succ, elemUnionList_cons,
        elemUnionList_cons, ih hi']

lemma findIndex_le (key : Nat) : ∀ keys : List Nat, findIndex key keys ≤ keys.length := by
  intro keys
  induction keys with
  | nil => simp [findIndex]
  | cons k ks ih =>
    by_cases h : key ≥ k <;> (simp [findIndex, h]; try omega)

lemma leafGet_some {keys : List Nat} {values : List (Finset Nat)} {key : Nat}
    {bitmap : Finset Nat} (h : leafGet keys values key = some bitmap) :
    findIndex key keys ≠ 0 ∧ keys[findIndex key keys - 1]? = some key ∧
      values[findIndex key keys - 1]? = some bitmap := by
  by_cases h0 : findIndex key keys = 0
  · simp [leafGet, h0] at h
  · by_cases h1 : keys[findIndex key keys - 1]? = some key
    · simp only [leafGet, h0, if_false, h1, if_true] at h
      exact ⟨h0, h1, h⟩
    · simp [leafGet, h0, h1] at h

/-- `split` on a well-formed full element: both halves keep the parallel-array
invariant and the covering invariant, and together they carry exactly the
posting sets of the original element. -/
lemma split_cov {c : BTreeElement} {mk : Nat} {l r : BTreeElement}
    (hlen : LeafLenOk c) (hcov : CoveringExact c)
    (hsp : c.split = some (mk, l, r)) :
    (LeafLenOk l ∧ LeafLenOk r) ∧ (CoveringExact l ∧ CoveringExact r) ∧
      elemUnion l ∪ elemUnion r = elemUnion c := by
  cases c with
  | leaf keys values =>
    cases hmk : keys[keys.length / 2]? with
    | none => rw [split.eq_1, hmk] at hsp; exact absurd hsp (by simp)
    | some mk0 =>
      rw [split.eq_1, hmk] at hsp
      simp only [Option.some.injEq, Prod.mk.injEq] at hsp
      obtain ⟨rfl, rfl, rfl⟩ := hsp
      cases hlen with
      | leaf _ _ hvk =>
        refine ⟨⟨LeafLenOk.leaf _ _ ?_, LeafLenOk.leaf _ _ ?_⟩,
          ⟨CoveringExact.leaf _ _, CoveringExact.leaf _ _⟩, ?_⟩
        · simp [hvk]
        · simp [hvk]
        · show unionList _ ∪ unionList _ = unionList _
          rw [← unionList_append, List.take_append_drop]
  | node keys children covering =>
    cases hmk : keys[keys.length / 2]? with
    | none => rw [split.eq_2, hmk] at hsp; exact absurd hsp (by simp)
    | some mk0 =>
      rw [split.eq_2, hmk] at hsp
      simp only [Option.some.injEq, Prod.mk.injEq] at hsp
      obtain ⟨rfl, rfl, rfl⟩ := hsp
      have hchlen : ∀ c ∈ children, LeafLenOk c := by
        cases hlen with | node _ _ _ h => exact h
      have hchcov : ∀ c ∈ children, CoveringExact c := by
        cases hcov with | node _ _ _ h _ => exact h
      have hcoveq : covering = elemUnionList children := by
        cases hcov with | node _ _ _ _ h => exact h
      have hl := mkNode_cov (children.take (keys.length / 2 + 1))
        (keys.take (keys.length / 2)) (fun c hc => hchcov c (List.take_subset _ _ hc))
      have hr := mkNode_cov (children.drop (keys.length / 2 + 1))
        (keys.drop (keys.length / 2 + 1)) (fun c hc => hchcov c (List.drop_subset _ _ hc))
      refine ⟨⟨LeafLenOk.node _ _ _ (fun c hc => hchlen c (List.take_subset _ _ hc)),
        LeafLenOk.node _ _ _ (fun c hc => hchlen c (List.drop_subset _ _ hc))⟩,
        ⟨hl.1, hr.1⟩, ?_⟩
      rw [hl.2, hr.2]
      show _ = elemUnionList children
      rw [← elemUnionList_append, List.take_append_drop]

/-- `BTreeElement.insert` preserves the parallel-array and covering invariants
and adds exactly `value` to the subtree union. -/
lemma insert_cov :
    ∀ (fuel : Nat) (t : BTreeElement) (key value : Nat) (t' : BTreeElement),
      LeafLenOk t → CoveringExact t →
      BTreeElement.insert fuel t key value = some t' →
      LeafLenOk t' ∧ CoveringExact t' ∧ elemUnion t' = elemUnion t ∪ {value} := by
  intro fuel
  induction fuel with
  | zero => intro t key value t' _ _ h; exact absurd h (by simp [BTreeElement.insert])
  | succ fuel ih =>
    intro t key value t' hlen hcov h
    cases t with
    | leaf keys values =>
      rw [BTreeElement.insert.eq_2] at h
      simp only [Option.some.injEq] at h
      subst h
      cases hlen with
      | leaf _ _ hvk =>
        cases hget : leafGet keys values key with
        | some bitmap =>
          obtain ⟨h0, hkey, hval⟩ := leafGet_some hget
          simp only [leafInsert, hget]
          refine ⟨LeafLenOk.leaf _ _ (by simp [hvk]), CoveringExact.leaf _ _, ?_⟩
          show unionList _ = unionList _ ∪ _
          exact unionList_set_add hval
        | none =>
          simp only [leafInsert, hget]
          have hik : findIndex key keys ≤ keys.length := findIndex_le key keys
          refine ⟨LeafLenOk.leaf _ _ ?_, CoveringExact.leaf _ _, ?_⟩
          · rw [List.length_insertIdx _ _ hik, List.length_insertIdx _ _ (by omega)]
            omega
          · show unionList _ = unionList _ ∪ _
            exact unionList_insertIdx (by omega)
    | node keys children covering =>
      rw [BTreeElement.insert.eq_3] at h
      have hchlen : ∀ x ∈ children, LeafLenOk x := by
        cases hlen with | node _ _ _ hx => exact hx
      have hchcov : ∀ x ∈ children, CoveringExact x := by
        cases hcov with | node _ _ _ hx _ => exact hx
      have hcoveq : covering = elemUnionList children := by
        cases hcov with | node _ _ _ _ hx => exact hx
      split at h
      · exact absurd h (by simp)
      rename_i c hch
      have hcmem : c ∈ children := by
        rw [List.getElem?_eq_some] at hch
        obtain ⟨hlt, rfl⟩ := hch
        exact List.getElem_mem _
      split at h
      · -- preemptive split of the full child, then restart on the spliced node
        split at h
        · exact absurd h (by simp)
        rename_i hfull mk l r hsp
        obtain ⟨⟨hllen, hrlen⟩, ⟨hlcov, hrcov⟩, hlr⟩ :=
          split_cov (hchlen c hcmem) (hchcov c hcmem) hsp
        have hmemsplice :
            ∀ x ∈ (children.insertIdx (findIndex key keys + 1) r).set
              (findIndex key keys) l, x = l ∨ x = r ∨ x ∈ children := by
          intro x hx
          rcases List.mem_or_eq_of_mem_set hx with hx' | rfl
          · have hle : findIndex key keys + 1 ≤ children.length := by
              rw [List.getElem?_eq_some] at hch
              obtain ⟨hlt, _⟩ := hch
              omega
            rcases (List.mem_insertIdx hle).mp hx' with rfl | hx'' <;> tauto
          · tauto
        have hsplice := elemUnionList_splice hlr hch
        have hcov' : CoveringExact
            (BTreeElement.node (keys.insertIdx (findIndex key keys) mk)
              ((children.insertIdx (findIndex key keys + 1) r).set (findIndex key keys) l)
              covering) := by
          refine CoveringExact.node _ _ _ ?_ ?_
          · intro x hx
            rcases hmemsplice x hx with rfl | rfl | hx' <;>
              first
              | exact hlcov
              | exact hrcov
              | exact hchcov x hx'
          · rw [hsplice, hcoveq]
        have hlen' : LeafLenOk
            (BTreeElement.node (keys.insertIdx (findIndex key keys) mk)
              ((children.insertIdx (findIndex key keys + 1) r).set (findIndex key keys) l)
              covering) := by
          refine LeafLenOk.node _ _ _ ?_
          intro x hx
          rcases hmemsplice x hx with rfl | rfl | hx' <;>
            first
            | exact hllen
            | exact hrlen
            | exact hchlen x hx'
        obtain ⟨hl1, hl2, hl3⟩ := ih _ key value t' hlen' hcov' h
        refine ⟨hl1, hl2, ?_⟩
        rw [hl3]
        show _ = elemUnionList children ∪ {value}
        rw [show elemUnion (BTreeElement.node (keys.insertIdx (findIndex key keys) mk)
          ((children.insertIdx (findIndex key keys + 1) r).set (findIndex key keys) l)
          covering) = elemUnionList ((children.insertIdx (findIndex key keys + 1) r).set
            (findIndex key keys) l) from rfl, hsplice]
      · -- incremental covering update, then insertion into the child
        split at h
        · exact absurd h (by simp)
        rename_i hfull c' hc'
        simp only [Option.some.injEq] at h
        subst h
        obtain ⟨hc'len, hc'cov, hc'union⟩ :=
          ih c key value c' (hchlen c hcmem) (hchcov c hcmem) hc'
        refine ⟨LeafLenOk.node _ _ _ ?_, CoveringExact.node _ _ _ ?_ ?_, ?_⟩
        · intro x hx
          rcases List.mem_or_eq_of_mem_set hx with hx' | rfl
          · exact hchlen x hx'
          · exact hc'len
        · intro x hx
          rcases List.mem_or_eq_of_mem_set hx with hx' | rfl
          · exact hchcov x hx'
          · exact hc'cov
        · rw [elemUnionList_set_add hch hc'union, hcoveq]
          ext x; simp [Finset.mem_insert]; try tauto
        · show elemUnionList _ = elemUnionList children ∪ {value}
          rw [elemUnionList_set_add hch hc'union]

/-- `BTree.insert` preserves the invariants and adds exactly `value` to the
root's subtree union. -/
lemma tree_insert_cov :
    ∀ (fuel : Nat) (t : BTree) (key value : Nat) (t' : BTree),
      LeafLenOk t.root → CoveringExact t.root →
      BTree.insert fuel t key value = some t' →
      LeafLenOk t'.root ∧ CoveringExact t'.root ∧
        elemUnion t'.root = elemUnion t.root ∪ {value} := by
  intro fuel
  induction fuel with
  | zero => intro t key value t' _ _ h; exact absurd h (by simp [BTree.insert])
  | succ fuel ih =>
    intro t key value t' hlen hcov h
    rw [BTree.insert.eq_2] at h
    split at h
    · -- wrap the full root
      split at h
      · exact absurd h (by simp)
      rename_i hfull mk l r hsp
      obtain ⟨⟨hllen, hrlen⟩, ⟨hlcov, hrcov⟩, hlr⟩ := split_cov hlen hcov hsp
      have hcovs : ∀ c ∈ [l, r], CoveringExact c := by
        intro c hc
        simp only [List.mem_cons, List.not_mem_nil, or_false] at hc
        rcases hc with rfl | rfl
        · exact hlcov
        · exact hrcov
      have hmk := mkNode_cov [l, r] [mk] hcovs
      have hlenmk : LeafLenOk (mkNode [mk] [l, r]) := by
        refine LeafLenOk.node _ _ _ ?_
        intro c hc
        simp only [List.mem_cons, List.not_mem_nil, or_false] at hc
        rcases hc with rfl | rfl
        · exact hllen
        · exact hrlen
      obtain ⟨h1, h2, h3⟩ := ih ⟨mkNode [mk] [l, r]⟩ key value t' hlenmk hmk.1 h
      refine ⟨h1, h2, ?_⟩
      rw [h3, hmk.2]
      rw [show elemUnionList [l, r] = elemUnion l ∪ (elemUnion r ∪ ∅) from rfl, ← hlr]
      ext x; simp
    · rename_i hfull
      split at h
      · exact absurd h (by simp)
      rename_i root' hr
      simp only [Option.some.injEq] at h
      subst h
      exact insert_cov fuel t.root key value root' hlen hcov hr

end BTreeElement

/-- Every built tree keeps the parallel-array and covering invariants. -/
lemma built_cov {t : BTree} {ps : List (Nat × Nat)} (h : Built t ps) :
    LeafLenOk t.root ∧ CoveringExact t.root := by
  induction h with
  | nil => exact ⟨LeafLenOk.leaf _ _ rfl, CoveringExact.leaf _ _⟩
  | step hb hins ih =>
    obtain ⟨h1, h2, _⟩ := BTreeElement.tree_insert_cov _ _ _ _ _ ih.1 ih.2 hins
    exact ⟨h1, h2⟩

/-! ## C3: the covering invariant -/

/-- C3: for every tree built by a sequence of insertions from the empty tree,
after every completed insertion every inner node's cached covering set equals
exactly the union of the posting sets of every key stored in that node's
subtree. -/
theorem c3_covering_invariant {t : BTree} {ps : List (Nat × Nat)} (h : Built t ps) :
    CoveringExact t.root :=
  (built_cov h).2

/-- Witness for `c3_covering_invariant` on the tree built by one insertion. -/
theorem c3_covering_invariant_witness :
    Built ⟨.leaf [5] [{100}]⟩ [(5, 100)] ∧
      CoveringExact (BTree.mk (BTreeElement.leaf [5] [{100}])).root :=
  have hb : Built ⟨.leaf [5] [{100}]⟩ [(5, 100)] :=
    @Built.step BTree.new [] 32 5 100 ⟨.leaf [5] [{100}]⟩ Built.nil rfl
  ⟨hb, c3_covering_invariant hb⟩

/-! ## Well-formedness machinery -/

namespace BTreeElement

lemma chained_length {P : Option Nat → Option Nat → BTreeElement → Prop} :
    ∀ {lo hi keys children}, Chained P lo hi keys children →
      children.length = keys.length + 1 := by
  intro lo hi keys children h
  induction h with
  | single _ => rfl
  | cons _ _ _ ih => simpa using ih

lemma findIndex_stop {key : Nat} :
    ∀ {keys : List Nat} {b : Nat}, keys[findIndex key keys]? = some b → key < b := by
  intro keys
  induction keys with
  | nil => intro b h; simp at h
  | cons k ks ih =>
    intro b h
    by_cases hge : key ≥ k
    · rw [show findIndex key (k :: ks) = findIndex key ks + 1 from by simp [findIndex, hge]] at h
      exact ih (by simpa using h)
    · rw [show findIndex key (k :: ks) = 0 from by simp [findIndex, hge]] at h
      simp only [List.getElem?_cons_zero, Option.some.injEq] at h
      omega

lemma findIndex_zero_all {key : Nat} {ks : List Nat}
    (hsort : List.Chain' (· < ·) ks) (h0 : findIndex key ks = 0) :
    ∀ b ∈ ks, key < b := by
  cases ks with
  | nil => intro b hb; simp at hb
  | cons k ks =>
    have hlt : key < k := by
      by_cases hge : key ≥ k
      · simp [findIndex, hge] at h0
      · omega
    intro b hb
    rcases List.mem_cons.mp hb with rfl | hb'
    · exact hlt
    · have : k < b :=
        List.rel_of_pairwise_cons ((List.chain'_iff_pairwise).mp hsort) hb'
      omega

lemma lookupE_none {key : Nat} :
    ∀ {l : List (Nat × Finset Nat)}, (∀ p ∈ l, key ≠ p.1) → lookupE l key = none := by
  intro l
  induction l with
  | nil => intro _; rfl
  | cons p rest ih =>
    intro h
    have hne : key ≠ p.1 := h p (List.mem_cons_self _ _)
    simp only [lookupE, if_neg hne]
    exact ih fun q hq => h q (List.mem_cons_of_mem _ hq)

lemma lookupE_append (a b : List (Nat × Finset Nat)) (key : Nat) :
    lookupE (a ++ b) key =
      match lookupE a key with
      | some s => some s
      | none => lookupE b key := by
  induction a with
  | nil => simp [lookupE]
  | cons p rest ih =>
    by_cases h : key = p.1
    · simp [lookupE, h]
    · simp only [List.cons_append, lookupE, if_neg h]
      exact ih

lemma leafGet_eq_lookup :
    ∀ (keys : List Nat) (values : List (Finset Nat)), List.Chain' (· < ·) keys →
      values.length = keys.length → ∀ key,
      leafGet keys values key = lookupE (keys.zip values) key := by
  intro keys
  induction keys with
  | nil =>
    intro values _ hlen key
    cases values with
    | nil => rfl
    | cons v vs => simp at hlen
  | cons k ks ih =>
    intro values hsort hlen key
    cases values with
    | nil => simp at hlen
    | cons v vs =>
      have hlen' : vs.length = ks.length := by simpa using hlen
      have hsort' : List.Chain' (· < ·) ks := hsort.tail
      have hklt : ∀ b ∈ ks, k < b := fun b hb =>
        List.rel_of_pairwise_cons ((List.chain'_iff_pairwise).mp hsort) hb
      by_cases hge : key ≥ k
      · have hfi : findIndex key (k :: ks) = findIndex key ks + 1 := by
          simp [findIndex, hge]
        cases h0 : findIndex key ks with
        | zero =>
          have hl : leafGet (k :: ks) (v :: vs) key =
              if key = k then some v else none := by
            simp only [leafGet, hfi, h0]
            by_cases hk : key = k
            · simp [hk]
            · have hk' : ¬(k = key) := fun hx => hk hx.symm
              simp [hk, hk']
          rw [hl]
          by_cases hk : key = k
          · simp [lookupE, hk]
          · have hnone : lookupE (ks.zip vs) key = none := by
              refine lookupE_none ?_
              intro p hp
              have hp1 : p.1 ∈ ks := by
                obtain ⟨a, b, hab⟩ : ∃ a b, p = (a, b) := ⟨p.1, p.2, rfl⟩
                subst hab
                exact (List.of_mem_zip hp).1
              have := findIndex_zero_all hsort' h0 p.1 hp1
              omega
            rw [if_neg hk, List.zip_cons_cons]
            simp only [lookupE]
            rw [if_neg (by simpa using hk)]
            exact hnone.symm
        | succ m =>
          have hl : leafGet (k :: ks) (v :: vs) key = leafGet ks vs key := by
            simp only [leafGet, hfi, h0]
            simp
          have hkne : key ≠ k := by
            cases ks with
            | nil => simp [findIndex] at h0
            | cons k1 ks1 =>
              have hk1 : key ≥ k1 := by
                by_cases hx : key ≥ k1
                · exact hx
                · simp [findIndex, hx] at h0
              have := hklt k1 (List.mem_cons_self _ _)
              omega
          rw [hl, ih vs hsort' hlen' key, List.zip_cons_cons]
          simp only [lookupE]
          rw [if_neg (by simpa using hkne)]
      · have hfi : findIndex key (k :: ks) = 0 := by simp [findIndex, hge]
        have hnone : leafGet (k :: ks) (v :: vs) key = none := by
          simp [leafGet, hfi]
        rw [hnone]
        refine (lookupE_none ?_).symm
        intro p hp
        rcases List.mem_cons.mp hp with rfl | hp'
        · show key ≠ k
          omega
        · have hp1 : p.1 ∈ ks := by
            obtain ⟨a, b, hab⟩ : ∃ a b, p = (a, b) := ⟨p.1, p.2, rfl⟩
            subst hab
            exact (List.of_mem_zip hp').1
          have := hklt p.1 hp1
          omega

end BTreeElement

namespace BTreeElement

mutual

theorem entries_bounds : ∀ (t : BTreeElement) {lo hi : Option Nat}, WFB lo hi t →
    ∀ p ∈ entries t, KeyIn lo hi p.1
  | .leaf keys values, lo, hi, h => by
    cases h with
    | leaf hsort hlen hsz hin =>
      intro p hp
      refine hin p.1 ?_
      obtain ⟨a, b, hab⟩ : ∃ a b, p = (a, b) := ⟨p.1, p.2, rfl⟩
      subst hab
      exact (List.of_mem_zip hp).1
  | .node keys children covering, lo, hi, h => by
    cases h with
    | node hsz hch =>
      intro p hp
      exact entriesList_bounds children hch p hp

theorem entriesList_bounds : ∀ (children : List BTreeElement) {lo hi : Option Nat}
    {keys : List Nat}, Chained WFB lo hi keys children →
    ∀ p ∈ entriesList children, KeyIn lo hi p.1
  | [], _, _, _, h => by cases h
  | c :: cs, lo, hi, keys, h => by
    cases h with
    | single hc =>
      intro p hp
      have hp' : p ∈ entries c := by simpa [entriesList] using hp
      exact entries_bounds c hc p hp'
    | cons hsep hc hrest =>
      rename_i k keys0
      intro p hp
      rw [show entriesList (c :: cs) = entries c ++ entriesList cs from rfl] at hp
      rcases List.mem_append.mp hp with hp' | hp'
      · have h1 := entries_bounds c hc p hp'
        exact ⟨h1.1, fun x hx => lt_trans (h1.2 k rfl) (hsep.2 x hx)⟩
      · have h1 := entriesList_bounds cs hrest p hp'
        exact ⟨fun x hx => le_trans (le_of_lt (hsep.1 x hx)) (h1.1 k rfl), h1.2⟩

end

mutual

theorem get_eq_lookup : ∀ (t : BTreeElement) {lo hi : Option Nat}, WFB lo hi t →
    ∀ key, get t key = lookupE (entries t) key
  | .leaf keys values, lo, hi, h => by
    cases h with
    | leaf hsort hlen _ _ =>
      intro key
      exact leafGet_eq_lookup keys values hsort hlen key
  | .node keys children covering, lo, hi, h => by
    cases h with
    | node hsz hch =>
      intro key
      show getChild children (findIndex key keys) key = lookupE (entriesList children) key
      exact getChild_eq_lookup children hch key

theorem getChild_eq_lookup : ∀ (children : List BTreeElement) {lo hi : Option Nat}
    {keys : List Nat}, Chained WFB lo hi keys children → ∀ key,
      getChild children (findIndex key keys) key = lookupE (entriesList children) key
  | [], _, _, _, h => by cases h
  | c :: cs, lo, hi, keys, h => by
    cases h with
    | single hc =>
      intro key
      show getChild [c] (findIndex key []) key = _
      rw [show findIndex key ([] : List Nat) = 0 from rfl]
      show get c key = lookupE (entries c ++ entriesList []) key
      rw [get_eq_lookup c hc key]
      simp [entriesList]
    | cons hsep hc hrest =>
      rename_i k keys0
      intro key
      rw [show entriesList (c :: cs) = entries c ++ entriesList cs from rfl,
        lookupE_append]
      by_cases hge : key ≥ k
      · have hfi : findIndex key (k :: keys0) = findIndex key keys0 + 1 := by
          simp [findIndex, hge]
        rw [hfi]
        show getChild cs (findIndex key keys0) key = _
        rw [getChild_eq_lookup cs hrest key]
        have hskip : lookupE (entries c) key = none := by
          refine lookupE_none ?_
          intro p hp
          have hb := entries_bounds c hc p hp
          have hlt : p.1 < k := hb.2 k rfl
          omega
        rw [hskip]
      · have hfi : findIndex key (k :: keys0) = 0 := by simp [findIndex, hge]
        rw [hfi]
        show get c key = _
        rw [get_eq_lookup c hc key]
        cases hlc : lookupE (entries c) key with
        | some s => rfl
        | none =>
          have hskip : lookupE (entriesList cs) key = none := by
            refine lookupE_none ?_
            intro p hp
            have hb := entriesList_bounds cs hrest p hp
            have hge' : k ≤ p.1 := hb.1 k rfl
            omega
          rw [hskip]

end

end BTreeElement

namespace BTreeElement

/-- Routing through a chained node: the scanned child index is in range, the
routed child is well-formed on an interval admitting `key`, replacing it by
any element well-formed on the same interval preserves the chain, and
splicing in a preemptive split of it (median `mk`, halves `l`, `r`) preserves
the chain and re-routes `key` to `l` or to `r`. -/
lemma chained_route :
    ∀ {lo hi : Option Nat} {keys : List Nat} {children : List BTreeElement},
      Chained WFB lo hi keys children → ∀ {key : Nat}, KeyIn lo hi key →
      ∃ lo' hi' c, children[findIndex key keys]? = some c ∧ WFB lo' hi' c ∧
        KeyIn lo' hi' key ∧
        (∀ c', WFB lo' hi' c' →
          Chained WFB lo hi keys (children.set (findIndex key keys) c')) ∧
        (∀ mk l r, WFB lo' (some mk) l → WFB (some mk) hi' r → SepIn lo' hi' mk →
          Chained WFB lo hi (keys.insertIdx (findIndex key keys) mk)
            ((children.insertIdx (findIndex key keys + 1) r).set (findIndex key keys) l) ∧
          (((children.insertIdx (findIndex key keys + 1) r).set
              (findIndex key keys) l)[findIndex key
                (keys.insertIdx (findIndex key keys) mk)]? = some l ∨
           ((children.insertIdx (findIndex key keys + 1) r).set
              (findIndex key keys) l)[findIndex key
                (keys.insertIdx (findIndex key keys) mk)]? = some r)) := by
  intro lo hi keys children h
  induction h with
  | single hc =>
    rename_i lo hi c
    intro key hkey
    refine ⟨lo, hi, c, rfl, hc, hkey, ?_, ?_⟩
    · intro c' hc'
      exact Chained.single hc'
    · intro mk l r hl hr hsepmk
      constructor
      · exact Chained.cons hsepmk hl (Chained.single hr)
      · show ([l, r][findIndex key [mk]]? = some l ∨ [l, r][findIndex key [mk]]? = some r)
        by_cases hm : key ≥ mk
        · right
          rw [show findIndex key [mk] = 1 from by simp [findIndex, hm]]
          simp
        · left
          rw [show findIndex key [mk] = 0 from by simp [findIndex, hm]]
          simp
  | cons hsep hc0 hrest ih =>
    rename_i lo hi k keys0 c0 children0
    intro key hkey
    by_cases hge : key ≥ k
    · have hkey' : KeyIn (some k) hi key := by
        refine ⟨?_, hkey.2⟩
        intro x hx
        rw [Option.mem_def, Option.some.injEq] at hx
        subst hx
        exact hge
      obtain ⟨lo', hi', c, hidx, hwf, hkin, hset, hsplice⟩ := ih hkey'
      have hfi : findIndex key (k :: keys0) = findIndex key keys0 + 1 := by
        simp [findIndex, hge]
      refine ⟨lo', hi', c, ?_, hwf, hkin, ?_, ?_⟩
      · rw [hfi]
        simpa using hidx
      · intro c' hc'
        rw [hfi, List.set_cons_succ]
        exact Chained.cons hsep hc0 (hset c' hc')
      · intro mk l r hl hr hsepmk
        obtain ⟨hchain, hroute⟩ := hsplice mk l r hl hr hsepmk
        rw [hfi]
        constructor
        · rw [List.insertIdx_succ_cons, List.insertIdx_succ_cons, List.set_cons_succ]
          exact Chained.cons hsep hc0 hchain
        · rw [List.insertIdx_succ_cons, List.insertIdx_succ_cons, List.set_cons_succ,
            show findIndex key (k :: keys0.insertIdx (findIndex key keys0) mk) =
              findIndex key (keys0.insertIdx (findIndex key keys0) mk) + 1 from by
                simp [findIndex, hge]]
          simpa using hroute
    · have hkey' : KeyIn lo (some k) key := by
        refine ⟨hkey.1, ?_⟩
        intro x hx
        rw [Option.mem_def, Option.some.injEq] at hx
        subst hx
        omega
      have hfi : findIndex key (k :: keys0) = 0 := by simp [findIndex, hge]
      refine ⟨lo, some k, c0, by rw [hfi]; simp, hc0, hkey', ?_, ?_⟩
      · intro c' hc'
        rw [hfi, List.set_cons_zero]
        exact Chained.cons hsep hc' hrest
      · intro mk l r hl hr hsepmk
        have hmkk : mk < k := hsepmk.2 k rfl
        rw [hfi]
        rw [show ((c0 :: children0).insertIdx 1 r).set 0 l = l :: r :: children0 from by
          rw [List.insertIdx_succ_cons, List.insertIdx_zero, List.set_cons_zero]]
        rw [show (k :: keys0).insertIdx 0 mk = mk :: k :: keys0 from by
          rw [List.insertIdx_zero]]
        constructor
        · refine Chained.cons ?_ hl (Chained.cons ?_ hr hrest)
          · refine ⟨hsepmk.1, ?_⟩
            intro x hx
            exact lt_trans hmkk (hsep.2 x hx)
          · refine ⟨?_, hsep.2⟩
            intro x hx
            rw [Option.mem_def, Option.some.injEq] at hx
            subst hx
            exact hmkk
        · by_cases hm : key ≥ mk
          · right
            rw [show findIndex key (mk :: k :: keys0) = 1 from by
              simp [findIndex, hm, hge]]
            simp
          · left
            rw [show findIndex key (mk :: k :: keys0) = 0 from by
              simp [findIndex, hm]]
            simp

end BTreeElement

namespace BTreeElement

lemma zip_take_drop : ∀ (m : Nat) (l1 : List Nat) (l2 : List (Finset Nat)),
    (l1.take m).zip (l2.take m) ++ (l1.drop m).zip (l2.drop m) = l1.zip l2 := by
  intro m
  induction m with
  | zero => intro l1 l2; simp
  | succ m ih =>
    intro l1 l2
    cases l1 with
    | nil => simp
    | cons a l1 =>
      cases l2 with
      | nil => simp
      | cons c l2 =>
        rw [List.take_succ_cons, List.take_succ_cons, List.zip_cons_cons,
          List.drop_succ_cons, List.drop_succ_cons, List.cons_append,
          List.zip_cons_cons, ih]

lemma entriesList_append (a b : List BTreeElement) :
    entriesList (a ++ b) = entriesList a ++ entriesList b := by
  induction a with
  | nil => simp [entriesList]
  | cons c cs ih =>
    rw [List.cons_append, show entriesList (c :: (cs ++ b)) =
      entries c ++ entriesList (cs ++ b) from rfl, ih,
      show entriesList (c :: cs) = entries c ++ entriesList cs from rfl,
      List.append_assoc]

lemma chained_take_drop :
    ∀ {lo hi : Option Nat} {keys : List Nat} {children : List BTreeElement},
      Chained WFB lo hi keys children → ∀ {m : Nat} {mk : Nat}, keys[m]? = some mk →
        Chained WFB lo (some mk) (keys.take m) (children.take (m + 1)) ∧
        Chained WFB (some mk) hi (keys.drop (m + 1)) (children.drop (m + 1)) ∧
        SepIn lo hi mk := by
  intro lo hi keys children h
  induction h with
  | single hc =>
    intro m mk hm
    simp at hm
  | cons hsep hc0 hrest ih =>
    rename_i lo hi k keys0 c0 children0
    intro m mk hm
    cases m with
    | zero =>
      simp only [List.getElem?_cons_zero, Option.some.injEq] at hm
      subst hm
      refine ⟨?_, ?_, hsep⟩
      · rw [List.take_zero, List.take_succ_cons, List.take_zero]
        exact Chained.single hc0
      · rw [List.drop_succ_cons, List.drop_succ_cons, List.drop_zero, List.drop_zero]
        exact hrest
    | succ m =>
      have hm' : keys0[m]? = some mk := by simpa using hm
      obtain ⟨hl, hr, hs⟩ := ih hm'
      have hkmk : k < mk := hs.1 k rfl
      refine ⟨?_, ?_, ?_⟩
      · rw [List.take_succ_cons, List.take_succ_cons]
        refine Chained.cons ⟨hsep.1, ?_⟩ hc0 hl
        intro x hx
        rw [Option.mem_def, Option.some.injEq] at hx
        subst hx
        exact hkmk
      · rw [List.drop_succ_cons, List.drop_succ_cons]
        exact hr
      · exact ⟨fun x hx => lt_trans (hsep.1 x hx) hkmk, hs.2⟩

lemma full_length {t : BTreeElement} {lo hi : Option Nat} (hwf : WFB lo hi t)
    (hfull : t.full = true) : (keysOf t).length = 32 := by
  cases t with
  | leaf keys values =>
    cases hwf with
    | leaf _ _ hsz _ =>
      simp only [full, MAX_LEAF_SIZE, decide_eq_true_eq] at hfull
      simp only [keysOf]
      simp only [MAX_LEAF_SIZE] at hsz
      omega
  | node keys children covering =>
    cases hwf with
    | node hsz _ =>
      simp only [full, MAX_NODE_SIZE, decide_eq_true_eq] at hfull
      simp only [keysOf]
      simp only [MAX_NODE_SIZE] at hsz
      omega

/-- Splitting a full well-formed element yields two non-full well-formed
halves around the promoted median, carrying exactly the original entries. -/
lemma split_wf {t : BTreeElement} {lo hi : Option Nat}
    (hwf : WFB lo hi t) (hfull : t.full = true) :
    ∃ mk l r, t.split = some (mk, l, r) ∧
      WFB lo (some mk) l ∧ WFB (some mk) hi r ∧ SepIn lo hi mk ∧
      l.full = false ∧ r.full = false ∧
      entries l ++ entries r = entries t := by
  have h32 := full_length hwf hfull
  cases t with
  | leaf keys values =>
    cases hwf with
    | leaf hsort hlen hsz hin =>
      simp only [keysOf] at h32
      have h16 : 16 < keys.length := by omega
      have hpair : List.Pairwise (· < ·) keys := (List.chain'_iff_pairwise).mp hsort
      have hmed : keys.length / 2 = 16 := by omega
      refine ⟨keys[16], .leaf (keys.take 16) (values.take 16),
        .leaf (keys.drop 16) (values.drop 16), ?_, ?_, ?_, ?_, ?_, ?_, ?_⟩
      · simp [split, hmed, List.getElem?_eq_getElem h16]
      · refine WFB.leaf ((List.chain'_iff_pairwise).mpr
          (hpair.sublist (List.take_sublist _ _))) ?_ ?_ ?_
        · simp [hlen]
        · simp only [List.length_take, MAX_LEAF_SIZE]
          omega
        · intro b hb
          obtain ⟨j, hj, rfl⟩ := List.getElem_of_mem hb
          rw [List.getElem_take]
          have hjlt : j < 16 := by
            simp only [List.length_take] at hj
            omega
          have hjk : j < keys.length := by omega
          refine ⟨(hin keys[j] (List.getElem_mem _)).1, ?_⟩
          intro x hx
          rw [Option.mem_def, Option.some.injEq] at hx
          subst hx
          exact List.pairwise_iff_getElem.mp hpair j 16 hjk h16 hjlt
      · refine WFB.leaf ((List.chain'_iff_pairwise).mpr
          (hpair.sublist (List.drop_sublist _ _))) ?_ ?_ ?_
        · simp [hlen]
        · simp only [List.length_drop, MAX_LEAF_SIZE]
          omega
        · intro b hb
          obtain ⟨j, hj, rfl⟩ := List.getElem_of_mem hb
          rw [List.getElem_drop]
          have hjk : 16 + j < keys.length := by
            simp only [List.length_drop] at hj
            omega
          refine ⟨?_, (hin keys[16 + j] (List.getElem_mem _)).2⟩
          intro x hx
          rw [Option.mem_def, Option.some.injEq] at hx
          subst hx
          rcases Nat.eq_zero_or_pos j with rfl | hpos
          · simp
          · exact le_of_lt (List.pairwise_iff_getElem.mp hpair 16 (16 + j) h16 hjk (by omega))
      · constructor
        · intro x hx
          have h0 : 0 < keys.length := by omega
          have hx0 : x ≤ keys[0] := (hin keys[0] (List.getElem_mem _)).1 x hx
          have : keys[0] < keys[16] := List.pairwise_iff_getElem.mp hpair 0 16 h0 h16 (by omega)
          omega
        · exact (hin keys[16] (List.getElem_mem _)).2
      · simp only [full, MAX_LEAF_SIZE, List.length_take]
        simp
        try omega
      · simp only [full, MAX_LEAF_SIZE, List.length_drop]
        simp
        try omega
      · show (keys.take 16).zip (values.take 16) ++ (keys.drop 16).zip (values.drop 16) =
          keys.zip values
        exact zip_take_drop 16 keys values
  | node keys children covering =>
    cases hwf with
    | node hsz hch =>
      simp only [keysOf] at h32
      have h16 : 16 < keys.length := by omega
      have hmed : keys.length / 2 = 16 := by omega
      obtain ⟨hl, hr, hs⟩ := chained_take_drop hch (List.getElem?_eq_getElem h16)
      have hmed17 : keys.length / 2 + 1 = 17 := by omega
      refine ⟨keys[16], mkNode (keys.take 16) (children.take 17),
        mkNode (keys.drop 17) (children.drop 17), ?_, ?_, ?_, hs, ?_, ?_, ?_⟩
      · simp [split, hmed, List.getElem?_eq_getElem h16]
      · refine WFB.node ?_ hl
        simp only [List.length_take, MAX_NODE_SIZE]
        omega
      · refine WFB.node ?_ hr
        simp only [List.length_drop, MAX_NODE_SIZE]
        omega
      · simp only [mkNode, full, MAX_NODE_SIZE, List.length_take]
        simp
        try omega
      · simp only [mkNode, full, MAX_NODE_SIZE, List.length_drop]
        simp
        try omega
      · show entriesList (children.take 17) ++ entriesList (children.drop 17) =
          entriesList children
        rw [← entriesList_append, List.take_append_drop]

end BTreeElement

namespace BTreeElement

lemma getChild_eq : ∀ (children : List BTreeElement) (i : Nat) (key : Nat),
    getChild children i key =
      match children[i]? with
      | some c => get c key
      | none => none := by
  intro children
  induction children with
  | nil => intro i key; simp [getChild]
  | cons c cs ih =>
    intro i key
    cases i with
    | zero => simp [getChild]
    | succ i => simpa [getChild] using ih i key

lemma entriesList_splice {children : List BTreeElement} {c l r : BTreeElement}
    (hlr : entries l ++ entries r = entries c) :
    ∀ {i : Nat}, children[i]? = some c →
      entriesList ((children.insertIdx (i + 1) r).set i l) = entriesList children := by
  induction children with
  | nil => intro i hi; simp at hi
  | cons c0 cs ih =>
    intro i hi
    cases i with
    | zero =>
      simp only [List.getElem?_cons_zero, Option.some.injEq] at hi
      subst hi
      rw [List.insertIdx_succ_cons, List.insertIdx_zero, List.set_cons_zero,
        show entriesList (l :: r :: cs) = entries l ++ (entries r ++ entriesList cs)
          from rfl,
        show entriesList (c0 :: cs) = entries c0 ++ entriesList cs from rfl,
        ← hlr, List.append_assoc]
    | succ i =>
      have hi' : cs[i]? = some c := by simpa using hi
      rw [List.insertIdx_succ_cons, List.set_cons_succ,
        show entriesList (c0 :: (cs.insertIdx (i + 1) r).set i l) =
          entries c0 ++ entriesList ((cs.insertIdx (i + 1) r).set i l) from rfl,
        ih hi',
        show entriesList (c0 :: cs) = entries c0 ++ entriesList cs from rfl]

lemma zip_insertIdx : ∀ (l1 : List Nat) (l2 : List (Finset Nat)) {i : Nat}
    (a : Nat) (b : Finset Nat), i ≤ l1.length → i ≤ l2.length →
    (l1.insertIdx i a).zip (l2.insertIdx i b) = (l1.zip l2).insertIdx i (a, b) := by
  intro l1
  induction l1 with
  | nil =>
    intro l2 i a b h1 h2
    have h0 : i = 0 := Nat.le_zero.mp h1
    subst h0
    cases l2 with
    | nil => rfl
    | cons v vs => simp
  | cons k ks ih =>
    intro l2 i a b h1 h2
    cases i with
    | zero => simp
    | succ i =>
      cases l2 with
      | nil => simp at h2
      | cons v vs =>
        rw [List.insertIdx_succ_cons, List.insertIdx_succ_cons, List.zip_cons_cons,
          List.zip_cons_cons, List.insertIdx_succ_cons,
          ih vs a b (by simpa using h1) (by simpa using h2)]

lemma zip_take : ∀ (m : Nat) (l1 : List Nat) (l2 : List (Finset Nat)),
    (l1.zip l2).take m = (l1.take m).zip (l2.take m) := by
  intro m
  induction m with
  | zero => intro l1 l2; simp
  | succ m ih =>
    intro l1 l2
    cases l1 with
    | nil => simp
    | cons a l1 =>
      cases l2 with
      | nil => simp
      | cons c l2 =>
        rw [List.zip_cons_cons, List.take_succ_cons, List.take_succ_cons,
          List.take_succ_cons, List.zip_cons_cons, ih]

lemma lookupE_eq_none_imp {key : Nat} :
    ∀ {l : List (Nat × Finset Nat)}, lookupE l key = none → ∀ p ∈ l, key ≠ p.1 := by
  intro l
  induction l with
  | nil => intro _ p hp; simp at hp
  | cons q rest ih =>
    intro h p hp
    by_cases hq : key = q.1
    · simp [lookupE, hq] at h
    · rcases List.mem_cons.mp hp with rfl | hp'
      · exact hq
      · simp only [lookupE, if_neg hq] at h
        exact ih h p hp'

lemma lookupE_skip_middle {key : Nat} {p : Nat × Finset Nat} (hne : key ≠ p.1) :
    ∀ (a b : List (Nat × Finset Nat)),
      lookupE (a ++ p :: b) key = lookupE (a ++ b) key := by
  intro a b
  induction a with
  | nil => simp [lookupE, hne]
  | cons q rest ih =>
    by_cases hq : key = q.1
    · simp [lookupE, hq]
    · simp only [List.cons_append, lookupE, if_neg hq]
      exact ih

lemma insertIdx_eq_take_drop {α : Type} : ∀ (l : List α) {i : Nat} (a : α), i ≤ l.length →
    l.insertIdx i a = l.take i ++ a :: l.drop i := by
  intro l
  induction l with
  | nil =>
    intro i a h
    have h0 : i = 0 := Nat.le_zero.mp h
    subst h0
    rfl
  | cons k ks ih =>
    intro i a h
    cases i with
    | zero => simp
    | succ i =>
      rw [List.insertIdx_succ_cons, List.take_succ_cons, List.drop_succ_cons,
        List.cons_append, ih a (by simpa using h)]

lemma findIndex_take_le {key : Nat} :
    ∀ {keys : List Nat}, ∀ b ∈ keys.take (findIndex key keys), b ≤ key := by
  intro keys
  induction keys with
  | nil => intro b hb; simp at hb
  | cons k ks ih =>
    intro b hb
    by_cases hge : key ≥ k
    · rw [show findIndex key (k :: ks) = findIndex key ks + 1 from by
        simp [findIndex, hge], List.take_succ_cons] at hb
      rcases List.mem_cons.mp hb with rfl | hb'
      · exact hge
      · exact ih b hb'
    · rw [show findIndex key (k :: ks) = 0 from by simp [findIndex, hge],
        List.take_zero] at hb
      simp at hb

lemma findIndex_drop_gt {key : Nat} :
    ∀ {keys : List Nat}, List.Chain' (· < ·) keys →
      ∀ b ∈ keys.drop (findIndex key keys), key < b := by
  intro keys
  induction keys with
  | nil => intro _ b hb; simp at hb
  | cons k ks ih =>
    intro hsort b hb
    by_cases hge : key ≥ k
    · rw [show findIndex key (k :: ks) = findIndex key ks + 1 from by
        simp [findIndex, hge], List.drop_succ_cons] at hb
      exact ih hsort.tail b hb
    · rw [show findIndex key (k :: ks) = 0 from by simp [findIndex, hge],
        List.drop_zero] at hb
      rcases List.mem_cons.mp hb with rfl | hb'
      · omega
      · have : k < b :=
          List.rel_of_pairwise_cons ((List.chain'_iff_pairwise).mp hsort) hb'
        omega

lemma sorted_insertIdx {keys : List Nat} {key : Nat}
    (hsort : List.Chain' (· < ·) keys) (hmem : key ∉ keys) :
    List.Chain' (· < ·) (keys.insertIdx (findIndex key keys) key) := by
  have hle := findIndex_le key keys
  rw [insertIdx_eq_take_drop keys key hle, List.chain'_iff_pairwise]
  have hpair : List.Pairwise (· < ·) keys := (List.chain'_iff_pairwise).mp hsort
  have hsplit : List.Pairwise (· < ·)
      (keys.take (findIndex key keys) ++ keys.drop (findIndex key keys)) := by
    rw [List.take_append_drop]
    exact hpair
  rw [List.pairwise_append] at hsplit
  rw [List.pairwise_append]
  refine ⟨hsplit.1, ?_, ?_⟩
  · rw [List.pairwise_cons]
    exact ⟨findIndex_drop_gt hsort, hsplit.2.1⟩
  · intro a ha b hb
    rcases List.mem_cons.mp hb with rfl | hb'
    · have h1 := findIndex_take_le a ha
      have h2 : a ≠ b := fun h => hmem (h ▸ List.take_subset _ _ ha)
      omega
    · exact hsplit.2.2 a ha b hb'

lemma leafGet_none_not_mem {keys : List Nat} {values : List (Finset Nat)} {key : Nat}
    (hsort : List.Chain' (· < ·) keys) (hlen : values.length = keys.length)
    (hget : leafGet keys values key = none) : key ∉ keys := by
  intro hmem
  rw [leafGet_eq_lookup keys values hsort hlen key] at hget
  obtain ⟨j, hj, rfl⟩ := List.getElem_of_mem hmem
  have hjv : j < values.length := by omega
  have hzlen : j < (keys.zip values).length := by
    rw [List.length_zip]
    omega
  have h1 : (keys.zip values)[j] = (keys[j], values[j]) := List.getElem_zip
  have hz : (keys[j], values[j]) ∈ keys.zip values := h1 ▸ List.getElem_mem _
  exact lookupE_eq_none_imp hget _ hz rfl

end BTreeElement

namespace BTreeElement

/-- `BTreeElement.insert` preserves well-formedness and updates `get`
pointwise like a map insertion (it is only invoked with admissible keys and
the slack discipline of the preemptive-split algorithm). -/
lemma insert_wf :
    ∀ (fuel : Nat) (t : BTreeElement) {lo hi : Option Nat} (key value : Nat)
      (t' : BTreeElement), WFB lo hi t → KeyIn lo hi key → SlackOk t key →
      BTreeElement.insert fuel t key value = some t' →
      WFB lo hi t' ∧
        ∀ k, get t' k =
          if k = key then some (Insert.insert value ((get t key).getD ∅))
          else get t k := by
  intro fuel
  induction fuel with
  | zero =>
    intro t lo hi key value t' _ _ _ h
    exact absurd h (by simp [BTreeElement.insert])
  | succ fuel ih =>
    intro t lo hi key value t' hwf hkey hslack h
    cases t with
    | leaf keys values =>
      rw [BTreeElement.insert.eq_2] at h
      simp only [Option.some.injEq] at h
      subst h
      cases hwf with
      | leaf hsort hlen hsz hin =>
        cases hget : leafGet keys values key with
        | some bitmap =>
          obtain ⟨h0, hkeyeq, hval⟩ := leafGet_some hget
          simp only [leafInsert, hget]
          refine ⟨WFB.leaf hsort (by simp [hlen]) hsz hin, ?_⟩
          intro k
          by_cases hk : k = key
          · subst hk
            rw [if_pos rfl,
              show get (BTreeElement.leaf keys values) k = leafGet keys values k
                from rfl, hget]
            show leafGet keys (values.set (findIndex k keys - 1)
              (Insert.insert value bitmap)) k = _
            simp only [leafGet]
            rw [if_neg h0, if_pos hkeyeq]
            have hlt : findIndex k keys - 1 < values.length :=
              (List.getElem?_eq_some.mp hval).1
            rw [List.getElem?_set_self hlt]
            simp
          · rw [if_neg hk]
            show leafGet keys (values.set (findIndex key keys - 1)
              (Insert.insert value bitmap)) k = leafGet keys values k
            simp only [leafGet]
            by_cases hk0 : findIndex k keys = 0
            · rw [if_pos hk0, if_pos hk0]
            · rw [if_neg hk0, if_neg hk0]
              by_cases hkk : keys[findIndex k keys - 1]? = some k
              · rw [if_pos hkk, if_pos hkk]
                have hne : findIndex key keys - 1 ≠ findIndex k keys - 1 := by
                  intro he
                  rw [← he, hkeyeq] at hkk
                  exact hk (Option.some.inj hkk).symm
                rw [List.getElem?_set_ne hne]
              · rw [if_neg hkk, if_neg hkk]
        | none =>
          simp only [leafInsert, hget]
          have hnotmem := leafGet_none_not_mem hsort hlen hget
          have hfle := findIndex_le key keys
          have hlt32 : keys.length < MAX_LEAF_SIZE := by
            simpa [SlackOk] using hslack
          have hsort' := sorted_insertIdx hsort hnotmem
          have hlen' : (values.insertIdx (findIndex key keys) {value}).length =
              (keys.insertIdx (findIndex key keys) key).length := by
            rw [List.length_insertIdx _ _ hfle,
              List.length_insertIdx _ _ (by omega)]
            omega
          have hwfnew : WFB lo hi (BTreeElement.leaf
              (keys.insertIdx (findIndex key keys) key)
              (values.insertIdx (findIndex key keys) {value})) := by
            refine WFB.leaf hsort' hlen' ?_ ?_
            · rw [List.length_insertIdx _ _ hfle]
              omega
            · intro b hb
              rcases (List.mem_insertIdx hfle).mp hb with rfl | hb'
              · exact hkey
              · exact hin b hb'
          refine ⟨hwfnew, ?_⟩
          intro k
          have hle' : findIndex key keys ≤ (keys.zip values).length := by
            rw [List.length_zip]
            omega
          rw [show get (BTreeElement.leaf (keys.insertIdx (findIndex key keys) key)
              (values.insertIdx (findIndex key keys) {value})) k =
            leafGet (keys.insertIdx (findIndex key keys) key)
              (values.insertIdx (findIndex key keys) {value}) k from rfl,
            leafGet_eq_lookup _ _ hsort' hlen' k,
            zip_insertIdx keys values key {value} hfle (by omega),
            insertIdx_eq_take_drop (keys.zip values) (key, {value}) hle']
          by_cases hk : k = key
          · subst hk
            rw [if_pos rfl, lookupE_append]
            have hskip : lookupE ((keys.zip values).take (findIndex k keys)) k =
                none := by
              refine lookupE_none ?_
              intro p hp
              rw [zip_take] at hp
              obtain ⟨a, b, rfl⟩ : ∃ a b, p = (a, b) := ⟨p.1, p.2, rfl⟩
              have hp1 : a ∈ keys.take (findIndex k keys) := (List.of_mem_zip hp).1
              have hmem : a ∈ keys := List.take_subset _ _ hp1
              exact fun he => hnotmem (he ▸ hmem)
            rw [hskip]
            show lookupE ((k, ({value} : Finset Nat)) ::
              (keys.zip values).drop (findIndex k keys)) k = _
            rw [show get (BTreeElement.leaf keys values) k =
              leafGet keys values k from rfl, hget]
            simp [lookupE]
          · rw [if_neg hk,
              lookupE_skip_middle (show k ≠ (key, ({value} : Finset Nat)).1 from hk),
              List.take_append_drop,
              show get (BTreeElement.leaf keys values) k =
                leafGet keys values k from rfl,
              leafGet_eq_lookup keys values hsort hlen k]
    | node keys children covering =>
      rw [BTreeElement.insert.eq_3] at h
      cases hwf with
      | node hsz hch =>
        split at h
        · exact absurd h (by simp)
        rename_i c hch2
        obtain ⟨lo', hi', c0, hidx, hcwf, hckey, hset, hsplice⟩ :=
          chained_route hch hkey
        rw [hch2] at hidx
        obtain rfl : c = c0 := Option.some.inj hidx
        split at h
        · rename_i hfull
          split at h
          · exact absurd h (by simp)
          rename_i mk l r hsp
          obtain ⟨mk', l', r', hsp', hlwf, hrwf, hsepmk, hlful, hrful, hentries⟩ :=
            split_wf hcwf hfull
          rw [hsp] at hsp'
          obtain ⟨rfl, rfl, rfl⟩ : mk = mk' ∧ l = l' ∧ r = r' := by
            have := Option.some.inj hsp'
            simp only [Prod.mk.injEq] at this
            exact ⟨this.1, this.2.1, this.2.2⟩
          obtain ⟨hchain, hroute⟩ := hsplice mk l r hlwf hrwf hsepmk
          have hlen32 : keys.length < MAX_NODE_SIZE := by
            rcases hslack with hlt | ⟨_, cc, hcc2, hccf⟩
            · exact hlt
            · rw [hch2] at hcc2
              rw [← Option.some.inj hcc2] at hccf
              rw [hfull] at hccf
              exact absurd hccf (by simp)
          have hwfspl : WFB lo hi (BTreeElement.node
              (keys.insertIdx (findIndex key keys) mk)
              ((children.insertIdx (findIndex key keys + 1) r).set
                (findIndex key keys) l) covering) := by
            refine WFB.node ?_ hchain
            rw [List.length_insertIdx _ _ (findIndex_le key keys)]
            omega
          have hslack' : SlackOk (BTreeElement.node
              (keys.insertIdx (findIndex key keys) mk)
              ((children.insertIdx (findIndex key keys + 1) r).set
                (findIndex key keys) l) covering) key := by
            refine Or.inr ⟨?_, ?_⟩
            · rw [List.length_insertIdx _ _ (findIndex_le key keys)]
              simp only [MAX_NODE_SIZE] at hlen32 ⊢
              omega
            · rcases hroute with hl | hr
              · exact ⟨l, hl, hlful⟩
              · exact ⟨r, hr, hrful⟩
          obtain ⟨hwf', hpt⟩ := ih _ key value t' hwfspl hkey hslack' h
          have hgeq : ∀ k, get (BTreeElement.node
              (keys.insertIdx (findIndex key keys) mk)
              ((children.insertIdx (findIndex key keys + 1) r).set
                (findIndex key keys) l) covering) k =
              get (BTreeElement.node keys children covering) k := by
            intro k
            rw [get_eq_lookup _ hwfspl k, get_eq_lookup _ (WFB.node hsz hch) k]
            show lookupE (entriesList _) k = lookupE (entriesList children) k
            rw [entriesList_splice hentries hch2]
          refine ⟨hwf', ?_⟩
          intro k
          rw [hpt k, hgeq k, hgeq key]
        · rename_i hfull
          split at h
          · exact absurd h (by simp)
          rename_i c' hc'
          simp only [Option.some.injEq] at h
          subst h
          have hcslack : SlackOk c key := by
            cases c with
            | leaf ck cv =>
              simp only [full, decide_eq_true_eq] at hfull
              show ck.length < MAX_LEAF_SIZE
              omega
            | node ck cc ccov =>
              simp only [full, decide_eq_true_eq] at hfull
              exact Or.inl (by omega)
          obtain ⟨hc'wf, hc'pt⟩ := ih c key value c' hcwf hckey hcslack hc'
          have hwf' : WFB lo hi (BTreeElement.node keys
              (children.set (findIndex key keys) c')
              (Insert.insert value covering)) :=
            WFB.node hsz (hset c' hc'wf)
          refine ⟨hwf', ?_⟩
          have hroot : ∀ k, get (BTreeElement.node keys children covering) k =
              getChild children (findIndex k keys) k := fun _ => rfl
          have hgetc : get (BTreeElement.node keys children covering) key =
              get c key := by
            rw [hroot key, getChild_eq, hch2]
          intro k
          rw [show get (BTreeElement.node keys
              (children.set (findIndex key keys) c')
              (Insert.insert value covering)) k =
            getChild (children.set (findIndex key keys) c') (findIndex k keys) k
            from rfl, getChild_eq]
          by_cases hik : findIndex k keys = findIndex key keys
          · rw [hik, List.getElem?_set_self (List.getElem?_eq_some.mp hch2).1]
            show get c' k = _
            rw [hc'pt k]
            have hgk : get (BTreeElement.node keys children covering) k =
                get c k := by
              rw [hroot k, getChild_eq, hik, hch2]
            by_cases hk : k = key
            · subst hk
              rw [if_pos rfl, if_pos rfl, hgetc]
            · rw [if_neg hk, if_neg hk, hgk]
          · have hkne : k ≠ key := fun he => hik (by rw [he])
            rw [List.getElem?_set_ne (fun he => hik he.symm), if_neg hkne,
              hroot k, getChild_eq]

end BTreeElement

/-! ## C1: range-collection comparisons are flipped at the leaf level -/

/-- C1 (code bug): the claim states `docId ∈ gt(b)` iff `key > b` (and
symmetrically for `gte`, `lt`, `lte`).  On the tree built by inserting the
single pair `(key 1, doc 10)`, the code returns `gt(0) = ∅` although `1 > 0`,
and `gt(2) = {10}` although `1 ≤ 2`; `gte(0) = ∅` although `1 ≥ 0`;
`lt(2) = ∅` although `1 < 2`; `lte(2) = ∅` although `1 ≤ 2`.  The leaf-level
collectors of `BTreeLeaf` compare the bound against the stored key in the
wrong direction (`key > this.keys[i]` instead of `this.keys[i] > key`),
opposite to the (correct) node-level collectors of `BTreeNode`. -/
theorem c1_range_comparisons_flipped_at_leaves :
    ((buildT [(1, 10)]).bind fun t => t.gt 0) = some ∅ ∧
    ((buildT [(1, 10)]).bind fun t => t.gt 2) = some {10} ∧
    ((buildT [(1, 10)]).bind fun t => t.gte 0) = some ∅ ∧
    ((buildT [(1, 10)]).bind fun t => t.lt 2) = some ∅ ∧
    ((buildT [(1, 10)]).bind fun t => t.lte 2) = some ∅ ∧
    (1 : Nat) > 0 ∧ ¬ (1 : Nat) > 2 ∧ (1 : Nat) ≥ 0 ∧ (1 : Nat) < 2 ∧ (1 : Nat) ≤ 2 := by
  decide

/-! ## C2: the concrete scenario -/

/-- C2 (code bug): inserting keys `[5,3,8,1,9,2,7]` with docs `100..106`,
the code does return `get(8) = {102}`, and re-inserting `(5, 200)` yields
`get(5) = {100, 200}` with every other key undisturbed; but `gt(5)` returns
`∅` instead of the claimed `{102, 106}` and `lte(3)` returns `∅` instead of
the claimed `{101, 103}` (the leaf-level range comparisons are flipped). -/
theorem c2_concrete_scenario :
    (((buildT [(5, 100), (3, 101), (8, 102), (1, 103), (9, 104), (2, 105), (7, 106)]).bind
        fun t => t.get 8).map fun s => decide (s = ({102} : Finset Nat))) = some true ∧
    ((buildT [(5, 100), (3, 101), (8, 102), (1, 103), (9, 104), (2, 105), (7, 106)]).bind
        fun t => t.gt 5) = some ∅ ∧
    ((buildT [(5, 100), (3, 101), (8, 102), (1, 103), (9, 104), (2, 105), (7, 106)]).bind
        fun t => t.lte 3) = some ∅ ∧
    (((buildT [(5, 100), (3, 101), (8, 102), (1, 103), (9, 104), (2, 105), (7, 106), (5, 200)]).bind
        fun t => t.get 5).map fun s => decide (s = ({100, 200} : Finset Nat))) = some true ∧
    (((buildT [(5, 100), (3, 101), (8, 102), (1, 103), (9, 104), (2, 105), (7, 106), (5, 200)]).bind
        fun t => t.get 1).map fun s => decide (s = ({103} : Finset Nat))) = some true ∧
    (((buildT [(5, 100), (3, 101), (8, 102), (1, 103), (9, 104), (2, 105), (7, 106), (5, 200)]).bind
        fun t => t.get 2).map fun s => decide (s = ({105} : Finset Nat))) = some true ∧
    (((buildT [(5, 100), (3, 101), (8, 102), (1, 103), (9, 104), (2, 105), (7, 106), (5, 200)]).bind
        fun t => t.get 3).map fun s => decide (s = ({101} : Finset Nat))) = some true ∧
    (((buildT [(5, 100), (3, 101), (8, 102), (1, 103), (9, 104), (2, 105), (7, 106), (5, 200)]).bind
        fun t => t.get 7).map fun s => decide (s = ({106} : Finset Nat))) = some true ∧
    (((buildT [(5, 100), (3, 101), (8, 102), (1, 103), (9, 104), (2, 105), (7, 106), (5, 200)]).bind
        fun t => t.get 8).map fun s => decide (s = ({102} : Finset Nat))) = some true ∧
    (((buildT [(5, 100), (3, 101), (8, 102), (1, 103), (9, 104), (2, 105), (7, 106), (5, 200)]).bind
        fun t => t.get 9).map fun s => decide (s = ({104} : Finset Nat))) = some true := by
  decide

/-! ## C5: the selector can return a non-maximal document -/

/-- C5 (code bug): with the index built from `(key 10, doc 1), (key 30, doc 2)`,
candidates `C = {1, 2}` (cardinality 2) and the lookup `1 ↦ 10, 2 ↦ 30`,
a run of `quickSelect` whose random draw picks index 0 samples doc 1, asks
`gt(10)` — which the broken leaf collector answers with `∅` — and returns
doc 1, although doc 2 ∈ C has the strictly greater sort value `30 > 10`. -/
theorem c5_quickselect_can_return_nonmaximal :
    ((buildT [(10, 1), (30, 2)]).bind fun t =>
        quickSelect 5 [0] {1, 2} 2 t
          (fun d => if d = 1 then some 10 else if d = 2 then some 30 else none)) = some 1 ∧
    (2 : Nat) ∈ ({1, 2} : Finset Nat) ∧ (30 : Nat) > 10 := by
  decide

/-! ## C6: a full leaf's split keeps the median key in the right half -/

/-- C6 (counterexample): the leaf reached by inserting keys `1..32` (docs
`100..131`) is full; its `split()` promotes `keys[16] = 17`, and `17` is the
first key of the right half — the median key does appear in a returned
half's key array, contradicting the claim. -/
theorem c6_counterexample_median_in_right_half :
    ((buildT ((List.range 32).map fun i => (i + 1, i + 100))).map fun t =>
        (t.root.full,
         t.root.split.map fun r => (r.1, keysOf r.2.1, keysOf r.2.2))) =
      some (true, some (17,
        [1, 2, 3, 4, 5, 6, 7, 8, 9, 10, 11, 12, 13, 14, 15, 16],
        [17, 18, 19, 20, 21, 22, 23, 24, 25, 26, 27, 28, 29, 30, 31, 32])) ∧
    (17 : Nat) ∈ [17, 18, 19, 20, 21, 22, 23, 24, 25, 26, 27, 28, 29, 30, 31, 32] := by
  decide

/-- C6 (amended): for every full leaf (32 keys, strictly increasing), `split()`
promotes the key at index `floor(size/2) = 16` as the median key; the median
key does not appear in the left half's key array, and it does appear, exactly
as the first key, in the right half's key array (the right slice starts at the
median index). -/
theorem c6_amended_leaf_split (keys : List Nat) (values : List (Finset Nat))
    (hlen : keys.length = 32) (hsorted : List.Chain' (· < ·) keys) :
    ∃ medianKey,
      keys[16]? = some medianKey ∧
      (BTreeElement.leaf keys values).split = some (medianKey,
        .leaf (keys.take 16) (values.take 16), .leaf (keys.drop 16) (values.drop 16)) ∧
      medianKey ∉ keys.take 16 ∧
      (keys.drop 16).head? = some medianKey := by
  have h16 : 16 < keys.length := by omega
  refine ⟨keys[16], ?_, ?_, ?_, ?_⟩
  · simp [List.getElem?_eq_getElem h16]
  · simp [BTreeElement.split, hlen, List.getElem?_eq_getElem h16]
  · intro hmem
    have hpair : List.Pairwise (· < ·) keys :=
      (List.chain'_iff_pairwise).mp hsorted
    obtain ⟨j, hj, hjv⟩ := List.getElem_of_mem hmem
    rw [List.getElem_take] at hjv
    have hjlt : j < 16 := by simpa [hlen] using hj
    have : keys[j] < keys[16] :=
      List.pairwise_iff_getElem.mp hpair j 16 (by omega) h16 hjlt
    omega
  · rw [List.head?_drop]
    simp [List.getElem?_eq_getElem h16]

/-- Witness for `c6_amended_leaf_split` at a concrete full leaf. -/
theorem c6_amended_leaf_split_witness :
    (c6keys.length = 32 ∧ List.Chain' (· < ·) c6keys) ∧
    ∃ medianKey,
      c6keys[16]? = some medianKey ∧
      (BTreeElement.leaf c6keys c6vals).split = some (medianKey,
        .leaf (c6keys.take 16) (c6vals.take 16), .leaf (c6keys.drop 16) (c6vals.drop 16)) ∧
      medianKey ∉ c6keys.take 16 ∧
      (c6keys.drop 16).head? = some medianKey :=
  ⟨⟨by decide, by rw [List.chain'_iff_pairwise]; decide⟩,
    c6_amended_leaf_split c6keys c6vals (by decide) (by rw [List.chain'_iff_pairwise]; decide)⟩

/-! ## Tree-level well-formedness and the reference map -/

lemma keyIn_top (k : Nat) : KeyIn none none k := by
  simp [KeyIn]

/-- `BTree.insert` preserves root well-formedness and updates `get` pointwise
like a map insertion. -/
lemma tree_insert_wf :
    ∀ (fuel : Nat) (t : BTree) (key value : Nat) (t2 : BTree),
      WFB none none t.root → BTree.insert fuel t key value = some t2 →
      WFB none none t2.root ∧
        ∀ k, t2.get k =
          if k = key then some (Insert.insert value ((t.get key).getD ∅))
          else t.get k := by
  intro fuel
  induction fuel with
  | zero =>
    intro t key value t2 _ h
    exact absurd h (by simp [BTree.insert])
  | succ fuel ih =>
    intro t key value t2 hwf h
    rw [BTree.insert.eq_2] at h
    split at h
    · rename_i hfull
      split at h
      · exact absurd h (by simp)
      rename_i mk l r hsp
      obtain ⟨mk2, l2, r2, hsp2, hlwf, hrwf, _, _, _, hentries⟩ :=
        BTreeElement.split_wf hwf hfull
      rw [hsp] at hsp2
      obtain ⟨rfl, rfl, rfl⟩ : mk = mk2 ∧ l = l2 ∧ r = r2 := by
        have hinj := Option.some.inj hsp2
        simp only [Prod.mk.injEq] at hinj
        exact ⟨hinj.1, hinj.2.1, hinj.2.2⟩
      have hwrap : WFB none none (BTreeElement.mkNode [mk] [l, r]) := by
        refine WFB.node (by simp [BTreeElement.mkNode, MAX_NODE_SIZE]) ?_
        exact Chained.cons ⟨by simp, by simp⟩ hlwf (Chained.single hrwf)
      obtain ⟨hwf2, hpt⟩ :=
        ih ⟨BTreeElement.mkNode [mk] [l, r]⟩ key value t2 hwrap h
      have hgeq : ∀ k,
          BTree.get ⟨BTreeElement.mkNode [mk] [l, r]⟩ k = t.get k := by
        intro k
        show BTreeElement.get (BTreeElement.mkNode [mk] [l, r]) k =
          BTreeElement.get t.root k
        rw [BTreeElement.get_eq_lookup (BTreeElement.mkNode [mk] [l, r]) hwrap k,
          BTreeElement.get_eq_lookup t.root hwf k]
        have hent : entries (BTreeElement.mkNode [mk] [l, r]) =
            entries l ++ entries r := by
          show entriesList [l, r] = _
          rw [show entriesList [l, r] =
            entries l ++ (entries r ++ entriesList []) from rfl]
          simp [entriesList]
        rw [hent, hentries]
      refine ⟨hwf2, fun k => ?_⟩
      rw [hpt k, hgeq k, hgeq key]
    · rename_i hfull
      split at h
      · exact absurd h (by simp)
      rename_i root2 hroot
      simp only [Option.some.injEq] at h
      subst h
      have hslack : SlackOk t.root key := by
        cases htr : t.root with
        | leaf ks vs =>
          rw [htr] at hfull
          simp only [BTreeElement.full, decide_eq_true_eq, MAX_LEAF_SIZE] at hfull
          show ks.length < MAX_LEAF_SIZE
          simp only [MAX_LEAF_SIZE]
          omega
        | node ks cs cov =>
          rw [htr] at hfull
          simp only [BTreeElement.full, decide_eq_true_eq, MAX_NODE_SIZE] at hfull
          refine Or.inl ?_
          simp only [MAX_NODE_SIZE]
          omega
      obtain ⟨hwf2, hpt⟩ := BTreeElement.insert_wf fuel t.root key value root2
        hwf (keyIn_top key) hslack hroot
      exact ⟨hwf2, fun k => hpt k⟩

lemma specOf_append (ps : List (Nat × Nat)) (kv : Nat × Nat) (k : Nat) :
    specOf (ps ++ [kv]) k =
      if k = kv.1 then some (Insert.insert kv.2 ((specOf ps kv.1).getD ∅))
      else specOf ps k := by
  simp only [specOf, List.foldl_append, List.foldl_cons, List.foldl_nil]

lemma specOf_mem : ∀ {ps : List (Nat × Nat)} {key value : Nat},
    (key, value) ∈ ps → ∃ s, specOf ps key = some s ∧ value ∈ s := by
  intro ps
  induction ps using List.reverseRecOn with
  | nil => intro key value h; exact absurd h (by simp)
  | append_singleton ps kv ih =>
    intro key value h
    rw [specOf_append]
    rcases List.mem_append.mp h with h1 | h1
    · obtain ⟨s, hs, hv⟩ := ih h1
      by_cases hk : key = kv.1
      · rw [if_pos hk, ← hk, hs]
        exact ⟨_, rfl, Finset.mem_insert_of_mem hv⟩
      · rw [if_neg hk]
        exact ⟨s, hs, hv⟩
    · obtain rfl : (key, value) = kv := by simpa using h1
      rw [if_pos rfl]
      exact ⟨_, rfl, Finset.mem_insert_self _ _⟩

lemma specOf_not_mem : ∀ {ps : List (Nat × Nat)} {key : Nat},
    (∀ p ∈ ps, p.1 ≠ key) → specOf ps key = none := by
  intro ps
  induction ps using List.reverseRecOn with
  | nil => intro _ _; rfl
  | append_singleton ps kv ih =>
    intro key h
    rw [specOf_append]
    have hne : kv.1 ≠ key := h kv (by simp)
    rw [if_neg (fun he => hne he.symm)]
    exact ih fun p hp => h p (by simp [hp])

/-- Every reachable tree is well-formed, and its `get` agrees with the
reference map of its insertion history. -/
lemma built_wf {t : BTree} {ps : List (Nat × Nat)} (h : Built t ps) :
    WFB none none t.root ∧ ∀ k, t.get k = specOf ps k := by
  induction h with
  | nil =>
    refine ⟨WFB.leaf List.chain'_nil rfl (by simp [MAX_LEAF_SIZE]) (by simp), ?_⟩
    intro k
    rfl
  | step hb hins ih =>
    rename_i t0 ps0 fuel key value t1
    obtain ⟨hwf0, hget0⟩ := ih
    obtain ⟨hwf1, hpt⟩ := tree_insert_wf fuel t0 key value t1 hwf0 hins
    refine ⟨hwf1, ?_⟩
    intro k
    rw [hpt k, specOf_append]
    show _ = if k = key then some (Insert.insert value ((specOf ps0 key).getD ∅))
      else specOf ps0 k
    rw [hget0 key, hget0 k]

mutual

/-- Well-formed elements have strictly increasing leaf keys everywhere. -/
theorem wfb_leavesSorted : ∀ (t : BTreeElement) {lo hi : Option Nat},
    WFB lo hi t → LeavesSorted t
  | .leaf keys values, lo, hi, h => by
    cases h with
    | leaf hsort _ _ _ => exact LeavesSorted.leaf hsort
  | .node keys children covering, lo, hi, h => by
    cases h with
    | node _ hch => exact LeavesSorted.node (chained_leavesSorted children hch)

/-- Children of a chained well-formed node have sorted leaves. -/
theorem chained_leavesSorted : ∀ (children : List BTreeElement)
    {lo hi : Option Nat} {keys : List Nat}, Chained WFB lo hi keys children →
    ∀ c ∈ children, LeavesSorted c
  | [], _, _, _, h => by cases h
  | c :: cs, lo, hi, keys, h => by
    cases h with
    | single hc =>
      intro x hx
      rcases List.mem_cons.mp hx with rfl | hx2
      · exact wfb_leavesSorted x hc
      · exact absurd hx2 (by simp)
    | cons hsep hc hrest =>
      intro x hx
      rcases List.mem_cons.mp hx with rfl | hx2
      · exact wfb_leavesSorted x hc
      · exact chained_leavesSorted cs hrest x hx2

end

mutual

/-- Well-formed elements respect the leaf and node capacities everywhere. -/
theorem wfb_sizeOk : ∀ (t : BTreeElement) {lo hi : Option Nat},
    WFB lo hi t → SizeOk t
  | .leaf keys values, lo, hi, h => by
    cases h with
    | leaf _ _ hsz _ => exact SizeOk.leaf hsz
  | .node keys children covering, lo, hi, h => by
    cases h with
    | node hsz hch => exact SizeOk.node hsz (chained_sizeOk children hch)

/-- Children of a chained well-formed node respect the capacities. -/
theorem chained_sizeOk : ∀ (children : List BTreeElement)
    {lo hi : Option Nat} {keys : List Nat}, Chained WFB lo hi keys children →
    ∀ c ∈ children, SizeOk c
  | [], _, _, _, h => by cases h
  | c :: cs, lo, hi, keys, h => by
    cases h with
    | single hc =>
      intro x hx
      rcases List.mem_cons.mp hx with rfl | hx2
      · exact wfb_sizeOk x hc
      · exact absurd hx2 (by simp)
    | cons hsep hc hrest =>
      intro x hx
      rcases List.mem_cons.mp hx with rfl | hx2
      · exact wfb_sizeOk x hc
      · exact chained_sizeOk cs hrest x hx2

end

/-! ## C4: get round-trips inserted pairs and signals absence -/

/-- C4: on every tree built by a sequence of insertions, `get key` contains
every doc id inserted under `key`, and `get` of a key never inserted is the
absence signal `none` (no error). -/
theorem c4_get_round_trip {t : BTree} {ps : List (Nat × Nat)} (hb : Built t ps) :
    (∀ key value, (key, value) ∈ ps → ∃ s, t.get key = some s ∧ value ∈ s) ∧
      (∀ key, (∀ p ∈ ps, p.1 ≠ key) → t.get key = none) := by
  obtain ⟨hwf, hpt⟩ := built_wf hb
  constructor
  · intro key value hmem
    rw [hpt key]
    exact specOf_mem hmem
  · intro key hnot
    rw [hpt key]
    exact specOf_not_mem hnot

/-- Witness for `c4_get_round_trip` on a one-insertion tree. -/
theorem c4_get_round_trip_witness :
    Built ⟨.leaf [5] [{100}]⟩ [(5, 100)] ∧
      (∃ s, BTree.get ⟨.leaf [5] [{100}]⟩ 5 = some s ∧ 100 ∈ s) ∧
      BTree.get ⟨.leaf [5] [{100}]⟩ 7 = none :=
  have hb : Built ⟨.leaf [5] [{100}]⟩ [(5, 100)] :=
    @Built.step BTree.new [] 32 5 100 ⟨.leaf [5] [{100}]⟩ Built.nil rfl
  ⟨hb, (c4_get_round_trip hb).1 5 100 (by simp),
    (c4_get_round_trip hb).2 7 (by decide)⟩

/-! ## C7: leaf keys stay strictly increasing -/

/-- C7: after every completed insertion from the empty tree, every leaf has a
strictly increasing key array (sorted ascending, no duplicates). -/
theorem c7_sorted_leaf_keys {t : BTree} {ps : List (Nat × Nat)}
    (hb : Built t ps) : LeavesSorted t.root :=
  wfb_leavesSorted t.root (built_wf hb).1

/-- Witness for `c7_sorted_leaf_keys` on a one-insertion tree. -/
theorem c7_sorted_leaf_keys_witness :
    Built ⟨.leaf [5] [{100}]⟩ [(5, 100)] ∧
      LeavesSorted (BTree.mk (BTreeElement.leaf [5] [{100}])).root :=
  have hb : Built ⟨.leaf [5] [{100}]⟩ [(5, 100)] :=
    @Built.step BTree.new [] 32 5 100 ⟨.leaf [5] [{100}]⟩ Built.nil rfl
  ⟨hb, c7_sorted_leaf_keys hb⟩

/-! ## C8: capacities are never exceeded -/

/-- C8: after every completed insertion from the empty tree, every leaf holds
at most `MAX_LEAF_SIZE = 32` keys and every inner node at most
`MAX_NODE_SIZE = 32` separator keys. -/
theorem c8_capacity_never_exceeded {t : BTree} {ps : List (Nat × Nat)}
    (hb : Built t ps) : SizeOk t.root :=
  wfb_sizeOk t.root (built_wf hb).1

/-- Witness for `c8_capacity_never_exceeded` on a one-insertion tree. -/
theorem c8_capacity_never_exceeded_witness :
    Built ⟨.leaf [5] [{100}]⟩ [(5, 100)] ∧
      SizeOk (BTree.mk (BTreeElement.leaf [5] [{100}])).root :=
  have hb : Built ⟨.leaf [5] [{100}]⟩ [(5, 100)] :=
    @Built.step BTree.new [] 32 5 100 ⟨.leaf [5] [{100}]⟩ Built.nil rfl
  ⟨hb, c8_capacity_never_exceeded hb⟩

/-! ## C10: re-inserting a present pair is invisible to get -/

/-- C10 (implicit): re-inserting a `(key, docId)` pair already present in the
build history yields a tree observationally equal under `get`: every lookup
returns the same posting set as before the repeated insertion. -/
theorem c10_reinsert_get_idempotent {t : BTree} {ps : List (Nat × Nat)}
    {fuel key value : Nat} {t2 : BTree} (hb : Built t ps)
    (hmem : (key, value) ∈ ps)
    (hins : BTree.insert fuel t key value = some t2) :
    ∀ k, t2.get k = t.get k := by
  obtain ⟨hwf, hpt⟩ := built_wf hb
  obtain ⟨_, hpt2⟩ := tree_insert_wf fuel t key value t2 hwf hins
  intro k
  rw [hpt2 k]
  by_cases hk : k = key
  · subst hk
    rw [if_pos rfl]
    obtain ⟨s, hs, hv⟩ := specOf_mem hmem
    rw [hpt k, hs]
    simp [Finset.insert_eq_self.mpr hv]
  · rw [if_neg hk]

/-- Witness for `c10_reinsert_get_idempotent`: re-inserting `(5, 100)` into
the tree it built leaves `get` unchanged at the looked-up keys. -/
theorem c10_reinsert_get_idempotent_witness :
    BTree.insert 32 ⟨.leaf [5] [{100}]⟩ 5 100 =
        some ⟨.leaf [5] [Insert.insert 100 {100}]⟩ ∧
      BTree.get ⟨.leaf [5] [Insert.insert 100 {100}]⟩ 5 =
        BTree.get ⟨.leaf [5] [{100}]⟩ 5 :=
  have hb : Built ⟨.leaf [5] [{100}]⟩ [(5, 100)] :=
    @Built.step BTree.new [] 32 5 100 ⟨.leaf [5] [{100}]⟩ Built.nil rfl
  ⟨rfl, @c10_reinsert_get_idempotent ⟨.leaf [5] [{100}]⟩ [(5, 100)] 32 5 100
    ⟨.leaf [5] [Insert.insert 100 {100}]⟩ hb (by simp) rfl 5⟩

/-! ## C9 machinery: membership accounting for the range collector -/

lemma mem_foldl_union_pairs : ∀ (l : List (Nat × Finset Nat)) (acc : Finset Nat)
    (d : Nat), d ∈ l.foldl (fun a kv => a ∪ kv.2) acc →
      d ∈ acc ∨ ∃ kv ∈ l, d ∈ kv.2 := by
  intro l
  induction l with
  | nil => intro acc d h; exact Or.inl h
  | cons kv l ih =>
    intro acc d h
    rw [List.foldl_cons] at h
    rcases ih (acc ∪ kv.2) d h with h1 | h1
    · rcases Finset.mem_union.mp h1 with h2 | h2
      · exact Or.inl h2
      · exact Or.inr ⟨kv, by simp, h2⟩
    · obtain ⟨kv2, hkv2, hd2⟩ := h1
      exact Or.inr ⟨kv2, by simp [hkv2], hd2⟩

lemma takeWhile_getElem_pred {α : Type} (p : α → Bool) :
    ∀ (l : List α) (i : Nat) (h2 : i < l.length),
      i < (l.takeWhile p).length → p l[i] = true := by
  intro l
  induction l with
  | nil => intro i h2 _; exact absurd h2 (by simp)
  | cons a l ih =>
    intro i h2 hi
    cases hp : p a with
    | false =>
      rw [List.takeWhile_cons, if_neg (by simp [hp])] at hi
      exact absurd hi (by simp)
    | true =>
      cases i with
      | zero => exact hp
      | succ i =>
        refine ih i (by simpa using h2) ?_
        rw [List.takeWhile_cons, if_pos hp] at hi
        simpa using hi

lemma mem_unionList (values : List (Finset Nat)) (d : Nat) :
    d ∈ unionList values ↔ ∃ v ∈ values, d ∈ v := by
  induction values with
  | nil =>
    show d ∈ (∅ : Finset Nat) ↔ _
    simp
  | cons v vs ih =>
    rw [BTreeElement.unionList_cons, Finset.mem_union, ih]
    constructor
    · intro h
      rcases h with h | h
      · exact ⟨v, by simp, h⟩
      · obtain ⟨w, hw, hdw⟩ := h
        exact ⟨w, by simp [hw], hdw⟩
    · intro h
      obtain ⟨w, hw, hdw⟩ := h
      rcases List.mem_cons.mp hw with rfl | hw2
      · exact Or.inl hdw
      · exact Or.inr ⟨w, hw2, hdw⟩

lemma mem_elemUnionList_iff (cs : List BTreeElement) (d : Nat) :
    d ∈ elemUnionList cs ↔ ∃ c ∈ cs, d ∈ elemUnion c := by
  induction cs with
  | nil =>
    rw [show elemUnionList ([] : List BTreeElement) = ∅ from rfl]
    simp
  | cons c cs ih =>
    rw [BTreeElement.elemUnionList_cons, Finset.mem_union, ih]
    constructor
    · intro h
      rcases h with h | h
      · exact ⟨c, by simp, h⟩
      · obtain ⟨x, hx, hdx⟩ := h
        exact ⟨x, by simp [hx], hdx⟩
    · intro h
      obtain ⟨x, hx, hdx⟩ := h
      rcases List.mem_cons.mp hx with rfl | hx2
      · exact Or.inl hdx
      · exact Or.inr ⟨x, hx2, hdx⟩

mutual

/-- Well-formed elements have parallel leaf arrays everywhere. -/
theorem wfb_leafLenOk : ∀ (t : BTreeElement) {lo hi : Option Nat},
    WFB lo hi t → LeafLenOk t
  | .leaf keys values, lo, hi, h => by
    cases h with
    | leaf _ hvk _ _ => exact LeafLenOk.leaf _ _ hvk
  | .node keys children covering, lo, hi, h => by
    cases h with
    | node _ hch => exact LeafLenOk.node _ _ _ (chained_leafLenOk children hch)

/-- Children of a chained well-formed node have parallel leaf arrays. -/
theorem chained_leafLenOk : ∀ (children : List BTreeElement)
    {lo hi : Option Nat} {keys : List Nat}, Chained WFB lo hi keys children →
    ∀ c ∈ children, LeafLenOk c
  | [], _, _, _, h => by cases h
  | c :: cs, lo, hi, keys, h => by
    cases h with
    | single hc =>
      intro x hx
      rcases List.mem_cons.mp hx with rfl | hx2
      · exact wfb_leafLenOk x hc
      · exact absurd hx2 (by simp)
    | cons hsep hc hrest =>
      intro x hx
      rcases List.mem_cons.mp hx with rfl | hx2
      · exact wfb_leafLenOk x hc
      · exact chained_leafLenOk cs hrest x hx2

end

mutual

/-- Every document in a subtree union is posted under some stored entry. -/
theorem mem_elemUnion : ∀ (t : BTreeElement), LeafLenOk t →
    ∀ d, d ∈ elemUnion t → ∃ p ∈ entries t, d ∈ p.2
  | .leaf keys values, h, d, hd => by
    cases h with
    | leaf _ _ hvk =>
      have hd2 : d ∈ unionList values := hd
      obtain ⟨v, hv, hdv⟩ := (mem_unionList values d).mp hd2
      obtain ⟨i, hi, hiv⟩ := List.getElem_of_mem hv
      have hik : i < keys.length := by omega
      have hzi : i < (keys.zip values).length := by
        rw [List.length_zip]
        omega
      refine ⟨(keys.zip values)[i], List.getElem_mem hzi, ?_⟩
      rw [List.getElem_zip]
      show d ∈ values[i]
      rw [hiv]
      exact hdv

  | .node keys children covering, h, d, hd => by
    cases h with
    | node _ _ _ hch =>
      have hd2 : d ∈ elemUnionList children := hd
      obtain ⟨p, hp, hdp⟩ := mem_elemUnionList_entries children hch d hd2
      exact ⟨p, hp, hdp⟩

/-- List version of `mem_elemUnion`. -/
theorem mem_elemUnionList_entries : ∀ (cs : List BTreeElement),
    (∀ c ∈ cs, LeafLenOk c) → ∀ d, d ∈ elemUnionList cs →
      ∃ p ∈ entriesList cs, d ∈ p.2
  | [], _, d, hd => by
    rw [show elemUnionList ([] : List BTreeElement) = ∅ from rfl] at hd
    exact absurd hd (by simp)
  | c :: cs, h, d, hd => by
    rw [BTreeElement.elemUnionList_cons, Finset.mem_union] at hd
    rcases hd with hd | hd
    · obtain ⟨p, hp, hdp⟩ := mem_elemUnion c (h c (by simp)) d hd
      refine ⟨p, ?_, hdp⟩
      rw [show entriesList (c :: cs) = entries c ++ entriesList cs from rfl]
      exact List.mem_append_left _ hp
    · obtain ⟨p, hp, hdp⟩ := mem_elemUnionList_entries cs
        (fun x hx => h x (by simp [hx])) d hd
      refine ⟨p, ?_, hdp⟩
      rw [show entriesList (c :: cs) = entries c ++ entriesList cs from rfl]
      exact List.mem_append_right _ hp

end

namespace BTreeElement

/-- Entries hanging strictly right of separator `keys[m]` are at least it. -/
lemma chained_drop_bound {lo hi : Option Nat} {keys : List Nat}
    {children : List BTreeElement} (h : Chained WFB lo hi keys children) :
    ∀ (m : Nat) (hm : m < keys.length),
      ∀ p ∈ entriesList (children.drop (m + 1)), keys[m] ≤ p.1 := by
  induction h with
  | single hc => intro m hm; exact absurd hm (by simp)
  | cons hsep hc hrest ih =>
    rename_i lo2 hi2 k keys0 c cs
    intro m hm p hp
    cases m with
    | zero =>
      rw [show (c :: cs).drop 1 = cs from rfl] at hp
      have hb := entriesList_bounds cs hrest p hp
      exact hb.1 k rfl
    | succ m =>
      rw [show (c :: cs).drop (m + 2) = cs.drop (m + 1) from rfl] at hp
      exact ih m (by simpa using hm) p hp

end BTreeElement

namespace BTreeElement

mutual

/-- The (leaf-flipped) range collector `collectGt` always succeeds on a
well-formed, covering-exact element, and every document it collects beyond
the accumulator is posted in the subtree under some key different from the
bound (at leaves because only keys strictly below the bound are scanned, at
inner nodes because only covering sets of subtrees strictly above a
separator exceeding the bound are unioned). -/
theorem collectGt_entries : ∀ (t : BTreeElement) {lo hi : Option Nat},
    WFB lo hi t → CoveringExact t → ∀ (acc : Finset Nat) (b : Nat),
      ∃ s, collectGt t acc b = some s ∧
        ∀ d ∈ s, d ∈ acc ∨ ∃ p ∈ entries t, d ∈ p.2 ∧ p.1 ≠ b
  | .leaf keys values, lo, hi, hwf, hcov, acc, b => by
    refine ⟨_, rfl, ?_⟩
    intro d hd
    rcases mem_foldl_union_pairs _ acc d hd with h1 | h1
    · exact Or.inl h1
    · obtain ⟨kv, hkv, hdkv⟩ := h1
      have hpred := List.mem_takeWhile_imp hkv
      have hmem : kv ∈ (keys.zip values).reverse :=
        (List.takeWhile_sublist _).subset hkv
      have hmem2 : kv ∈ keys.zip values := List.mem_reverse.mp hmem
      refine Or.inr ⟨kv, hmem2, hdkv, ?_⟩
      simp only [decide_eq_true_eq] at hpred
      omega
  | .node keys children covering, lo, hi, hwf, hcov, acc, b => by
    have hch : Chained WFB lo hi keys children := by
      cases hwf with | node _ h => exact h
    have hcovc : ∀ c ∈ children, CoveringExact c := by
      cases hcov with | node _ _ _ h _ => exact h
    have hclen : children.length = keys.length + 1 := chained_length hch
    have hmain : ∀ (j : Nat), j = (keys.reverse.takeWhile (fun k => k > b)).length →
        ∃ s, gtChild children (keys.length - j)
            (((children.drop (keys.length + 1 - j)).reverse).foldl
              (fun a c => collectAll c a) acc) b = some s ∧
          ∀ d ∈ s, d ∈ acc ∨ ∃ p ∈ entriesList children, d ∈ p.2 ∧ p.1 ≠ b := by
      intro j hjdef
      have hjle : j ≤ keys.length := by
        have h1 : ((keys.reverse).takeWhile (fun k => k > b)).length ≤
            (keys.reverse).length := (List.takeWhile_sublist _).length_le
        rw [hjdef]
        simpa using h1
      have hbulk : ∀ d, d ∈ elemUnionList (children.drop (keys.length + 1 - j)) →
          ∃ p ∈ entriesList children, d ∈ p.2 ∧ p.1 ≠ b := by
        intro d hd
        by_cases hj0 : j = 0
        · rw [hj0, List.drop_eq_nil_of_le (by omega)] at hd
          rw [show elemUnionList ([] : List BTreeElement) = ∅ from rfl] at hd
          exact absurd hd (by simp)
        · have hsplit : keys.length + 1 - j = (keys.length - j) + 1 := by omega
          rw [hsplit] at hd
          have hlen2 : ∀ c ∈ children.drop ((keys.length - j) + 1), LeafLenOk c :=
            fun c hc => chained_leafLenOk children hch c (List.drop_subset _ _ hc)
          obtain ⟨p, hp, hdp⟩ := mem_elemUnionList_entries _ hlen2 d hd
          have hm : keys.length - j < keys.length := by omega
          have hge := chained_drop_bound hch (keys.length - j) hm p hp
          have hgt : b < keys[keys.length - j] := by
            have hrl : j - 1 < keys.reverse.length := by
              rw [List.length_reverse]
              omega
            have hlt : j - 1 < (keys.reverse.takeWhile (fun k => k > b)).length := by
              omega
            have hpred := takeWhile_getElem_pred (fun k => k > b) keys.reverse
              (j - 1) hrl hlt
            have hgr : keys.reverse[j - 1] = keys[keys.length - j] := by
              rw [List.getElem_reverse]
              congr 1
              omega
            rw [hgr] at hpred
            simpa using hpred
          have hpweak : p ∈ entriesList children := by
            rw [← List.take_append_drop ((keys.length - j) + 1) children,
              entriesList_append]
            exact List.mem_append_right _ hp
          exact ⟨p, hpweak, hdp, by omega⟩
      obtain ⟨s, hs, hsub⟩ := gtChild_entries children hch hcovc
        (keys.length - j) (by omega)
        (((children.drop (keys.length + 1 - j)).reverse).foldl
          (fun a c => collectAll c a) acc) b
      refine ⟨s, hs, ?_⟩
      intro d hd
      rcases hsub d hd with h1 | h1
      · have hcovd : ∀ c ∈ (children.drop (keys.length + 1 - j)).reverse,
            CoveringExact c :=
          fun c hc => hcovc c (List.drop_subset _ _ (List.mem_reverse.mp hc))
        rw [foldl_collectAll_eq hcovd _] at h1
        rcases Finset.mem_union.mp h1 with h2 | h2
        · exact Or.inl h2
        · refine Or.inr ?_
          refine hbulk d ?_
          obtain ⟨c, hc, hdc⟩ := (mem_elemUnionList_iff _ d).mp h2
          exact (mem_elemUnionList_iff _ d).mpr ⟨c, List.mem_reverse.mp hc, hdc⟩
      · exact Or.inr h1
    obtain ⟨s, hs, hsub⟩ := hmain _ rfl
    exact ⟨s, hs, hsub⟩

/-- `gtChild` walks to the routed child and collects there; its result is
accounted against the whole child list. -/
theorem gtChild_entries : ∀ (children : List BTreeElement) {lo hi : Option Nat}
    {keys : List Nat}, Chained WFB lo hi keys children →
    (∀ c ∈ children, CoveringExact c) → ∀ (i : Nat), i < children.length →
    ∀ (acc : Finset Nat) (b : Nat),
      ∃ s, gtChild children i acc b = some s ∧
        ∀ d ∈ s, d ∈ acc ∨ ∃ p ∈ entriesList children, d ∈ p.2 ∧ p.1 ≠ b
  | [], _, _, _, hch, _, i, hi, _, _ => absurd hi (by simp)
  | c :: cs, lo, hi, keys, hch, hcov, 0, hi0, acc, b => by
    have hcwf : ∃ lo2 hi2, WFB lo2 hi2 c := by
      cases hch with
      | single hc => exact ⟨lo, hi, hc⟩
      | cons hsep hc hrest =>
        rename_i k keys0
        exact ⟨lo, some k, hc⟩
    obtain ⟨lo2, hi2, hcwf2⟩ := hcwf
    obtain ⟨s, hs, hsub⟩ := collectGt_entries c hcwf2 (hcov c (by simp)) acc b
    refine ⟨s, hs, ?_⟩
    intro d hd
    rcases hsub d hd with h1 | h1
    · exact Or.inl h1
    · obtain ⟨p, hp, hdp, hpb⟩ := h1
      refine Or.inr ⟨p, ?_, hdp, hpb⟩
      rw [show entriesList (c :: cs) = entries c ++ entriesList cs from rfl]
      exact List.mem_append_left _ hp
  | c :: cs, lo, hi, keys, hch, hcov, i + 1, hi1, acc, b => by
    cases hch with
    | single hc => exact absurd hi1 (by simp)
    | cons hsep hc hrest =>
      rename_i k keys0
      obtain ⟨s, hs, hsub⟩ := gtChild_entries cs hrest
        (fun x hx => hcov x (by simp [hx])) i (by simpa using hi1) acc b
      refine ⟨s, hs, ?_⟩
      intro d hd
      rcases hsub d hd with h1 | h1
      · exact Or.inl h1
      · obtain ⟨p, hp, hdp, hpb⟩ := h1
        refine Or.inr ⟨p, ?_, hdp, hpb⟩
        rw [show entriesList (c :: cs) = entries c ++ entriesList cs from rfl]
        exact List.mem_append_right _ hp

end

end BTreeElement

/-! ## C9: the selector terminates within the candidate cardinality -/

/-- `RoaringBitmap32.select` succeeds on every in-range rank and returns a
member of the set. -/
lemma select_spec : ∀ (i : Nat) (s : Finset Nat), i < s.card →
    ∃ m, select s i = some m ∧ m ∈ s := by
  intro i
  induction i with
  | zero =>
    intro s hs
    have hne : s.Nonempty := Finset.card_pos.mp hs
    obtain ⟨m, hm⟩ := Finset.min_of_nonempty hne
    refine ⟨m, ?_, Finset.mem_of_min hm⟩
    show (match s.min with | none => none | some m2 => some m2) = some m
    rw [hm]
  | succ i ih =>
    intro s hs
    have hne : s.Nonempty := Finset.card_pos.mp (by omega)
    obtain ⟨m, hm⟩ := Finset.min_of_nonempty hne
    have hmem : m ∈ s := Finset.mem_of_min hm
    have hcard : i < (s.erase m).card := by
      rw [Finset.card_erase_of_mem hmem]
      omega
    obtain ⟨m2, hm2, hmem2⟩ := ih (s.erase m) hcard
    refine ⟨m2, ?_, Finset.mem_of_mem_erase hmem2⟩
    show (match s.min with | none => none | some m3 => select (s.erase m3) i) =
      some m2
    rw [hm]
    exact hm2

/-- One unfolding step of `quickSelect` with the lets reduced. -/
lemma quickSelect_step (fuel : Nat) (rand : List Nat) (results : Finset Nat)
    (cardinality : Nat) (t : BTree) (f : Nat → Option Nat) :
    quickSelect (fuel + 1) rand results cardinality t f =
      match select results (rand.headD 0 % cardinality) with
      | none => none
      | some pivotDoc =>
        match f pivotDoc with
        | none => none
        | some pivotValue =>
          match t.gt pivotValue with
          | none => none
          | some gtSet =>
            if (results ∩ gtSet).card = 0 then
              select results (rand.headD 0 % cardinality)
            else quickSelect fuel rand.tail (results ∩ gtSet)
              (results ∩ gtSet).card t f := rfl

/-- `quickSelect` succeeds (never exhausts its recursion budget) whenever the
budget covers the candidate cardinality and every candidate is indexed in the
well-formed tree exactly under its own sort value: the sampled pivot never
reappears in the strictly-greater subset, which therefore loses at least one
element per recursive call. -/
lemma quickSelect_terminates :
    ∀ (fuel : Nat) (results : Finset Nat) (rand : List Nat) (t : BTree)
      (f : Nat → Option Nat), results.Nonempty → results.card ≤ fuel →
      WFB none none t.root → CoveringExact t.root →
      (∀ d ∈ results, ExactAt t f d) →
      (quickSelect fuel rand results results.card t f).isSome := by
  intro fuel
  induction fuel with
  | zero =>
    intro results rand t f hne hcard _ _ _
    have := Finset.card_pos.mpr hne
    omega
  | succ fuel ih =>
    intro results rand t f hne hcard hwf hcov hex
    have hcpos : 0 < results.card := Finset.card_pos.mpr hne
    have hpi : rand.headD 0 % results.card < results.card := Nat.mod_lt _ hcpos
    obtain ⟨pd, hpd, hpdmem⟩ := select_spec (rand.headD 0 % results.card)
      results hpi
    obtain ⟨pv, hpv, hin, hexcl⟩ := hex pd hpdmem
    obtain ⟨gs, hgs, hgsub⟩ := BTreeElement.collectGt_entries t.root hwf hcov ∅ pv
    have hgt : t.gt pv = some gs := hgs
    have hrun : quickSelect (fuel + 1) rand results results.card t f =
        if (results ∩ gs).card = 0 then some pd
        else quickSelect fuel rand.tail (results ∩ gs) (results ∩ gs).card t f := by
      rw [quickSelect_step, hpd]
      show (match f pd with
        | none => none
        | some pivotValue =>
          match t.gt pivotValue with
          | none => none
          | some gtSet =>
            if (results ∩ gtSet).card = 0 then some pd
            else quickSelect fuel rand.tail (results ∩ gtSet)
              (results ∩ gtSet).card t f) = _
      rw [hpv]
      show (match t.gt pv with
        | none => none
        | some gtSet =>
          if (results ∩ gtSet).card = 0 then some pd
          else quickSelect fuel rand.tail (results ∩ gtSet)
            (results ∩ gtSet).card t f) = _
      rw [hgt]
    rw [hrun]
    by_cases h0 : (results ∩ gs).card = 0
    · rw [if_pos h0]
      rfl
    · rw [if_neg h0]
      have hpd_not : pd ∉ results ∩ gs := by
        intro hmem
        have hgsmem : pd ∈ gs := (Finset.mem_inter.mp hmem).2
        rcases hgsub pd hgsmem with h1 | h1
        · exact absurd h1 (by simp)
        · obtain ⟨p, hp, hdp, hpb⟩ := h1
          exact hpb (hexcl p hp hdp)
      have hsub2 : results ∩ gs ⊆ results.erase pd := by
        intro x hx
        rw [Finset.mem_erase]
        refine ⟨?_, (Finset.mem_inter.mp hx).1⟩
        intro he
        rw [he] at hx
        exact hpd_not hx
      have hcard2 : (results ∩ gs).card ≤ fuel := by
        have h1 := Finset.card_le_card hsub2
        rw [Finset.card_erase_of_mem hpdmem] at h1
        omega
      have hne2 : (results ∩ gs).Nonempty := Finset.card_pos.mp (by omega)
      exact ih (results ∩ gs) rand.tail t f hne2 hcard2 hwf hcov
        (fun d hd => hex d (Finset.mem_inter.mp hd).1)

/-- C9: on every built tree, for a nonempty candidate set whose members are
each indexed exactly under their own sort value, running the selector with a
recursion budget equal to the candidate cardinality (one level per
candidate) completes: each recursive call drops the sampled pivot from the
candidate set, so the depth never exceeds the cardinality. -/
theorem c9_selector_terminates {t : BTree} {ps : List (Nat × Nat)}
    (hb : Built t ps) (results : Finset Nat) (rand : List Nat)
    (f : Nat → Option Nat) (hne : results.Nonempty)
    (hex : ∀ d ∈ results, ExactAt t f d) :
    (quickSelect results.card rand results results.card t f).isSome :=
  quickSelect_terminates results.card results rand t f hne (le_refl _)
    (built_wf hb).1 (built_cov hb).2 hex

/-- Witness for `c9_selector_terminates` on a one-document candidate set. -/
theorem c9_selector_terminates_witness :
    Built ⟨.leaf [10] [{1}]⟩ [(10, 1)] ∧
      (quickSelect (({1} : Finset Nat).card) [] {1} (({1} : Finset Nat).card)
        ⟨.leaf [10] [{1}]⟩ (fun d => if d = 1 then some 10 else none)).isSome :=
  have hb : Built ⟨.leaf [10] [{1}]⟩ [(10, 1)] :=
    @Built.step BTree.new [] 32 10 1 ⟨.leaf [10] [{1}]⟩ Built.nil rfl
  have hex : ∀ d ∈ ({1} : Finset Nat),
      ExactAt ⟨.leaf [10] [{1}]⟩ (fun d => if d = 1 then some 10 else none) d := by
    intro d hd
    rw [Finset.mem_singleton] at hd
    subst hd
    refine ⟨10, rfl, ⟨(10, {1}), ?_, ?_, rfl⟩, ?_⟩
    · show (10, ({1} : Finset Nat)) ∈ [10].zip [({1} : Finset Nat)]
      simp
    · show (1 : Nat) ∈ ({1} : Finset Nat)
      simp
    · intro p hp hdp
      have hp3 : p ∈ [10].zip [({1} : Finset Nat)] := hp
      have hp2 : p = (10, ({1} : Finset Nat)) := by simpa using hp3
      rw [hp2]
  ⟨hb, c9_selector_terminates hb {1} []
    (fun d => if d = 1 then some 10 else none) (Finset.singleton_nonempty 1) hex⟩

end CBTree
